import Mathlib

/-!
Verification of el::StateMachine (include/StateMachine.hpp).

A shallow embedding of the header-only state machine.

* `std::unordered_map<K, V>` is an association list `UMap K V` (one iteration
  order of the table); `find`, `emplace` and `operator[] =` are the three table
  operations the header uses.
* `std::unordered_set<Key>` is a `Finset Key`.
* `MachineState*` is `Option (State Key)`; `none` is the null pointer.
* The pure virtual members of `State` and the stored `std::function` handlers
  are user code: they are a parameter (`UserCode`) and receive the machine,
  which carries the owner, so that they can do whatever the back references
  `owner` and `machine` allow.
* Dereferencing a null `m_currState` is a fault: `setNext` and the bus listener
  return `Option`, `none` being the fault.
-/

namespace el

/-! ## std::unordered_map -/

/-- An association list standing for `std::unordered_map<K, V>`. -/
abbrev UMap (K V : Type) := List (K × V)

namespace UMap

variable {K V : Type} [DecidableEq K]

/-- The table lookup `m.find(k)`: `none` is `m.end()`. -/
def find : UMap K V → K → Option V
  | [], _ => none
  | (k', v) :: rest, k => if k' = k then some v else find rest k

/-- The insertion `m.emplace(k, v)`: nothing is inserted when `k` is present. -/
def emplace (m : UMap K V) (k : K) (v : V) : UMap K V :=
  match find m k with
  | some _ => m
  | none => m ++ [(k, v)]

/-- The assignment `m[k] = v`: the entry of `k` is created or overwritten. -/
def assign : UMap K V → K → V → UMap K V
  | [], k, v => [(k, v)]
  | (k', v') :: rest, k, v =>
      if k' = k then (k', v) :: rest else (k', v') :: assign rest k v

/-- The keys of the table, in iteration order. -/
def keys (m : UMap K V) : List K := m.map Prod.fst

/-- The number of entries stored under `k`. -/
def entries (m : UMap K V) (k : K) : Nat := (keys m).count k

end UMap

/-! ## State and StateMachine -/

/-- The class `State<Owner, Key>`: the constant `KEY`, and `obj` for the identity
of the object (two states with one key are two objects).  The back references
`owner` and `machine` are what the user code is given as its argument. -/
structure State (Key : Type) where
  KEY : Key
  obj : Nat
deriving DecidableEq, Repr

/-- The data members of `StateMachine<Owner, Key>`.  `listeners` holds the
event types for which this receiver has registered a listener with the event
manager `EM`, one item per registration. -/
structure StateMachine (Key Ty Handler Owner : Type) where
  owner : Owner
  m_enabled : Bool
  m_currState : Option (State Key)
  m_prevState : Option (State Key)
  m_subscriptions : UMap Ty (UMap Key Handler)
  m_states : UMap Key (State Key)
  m_prohibited : Finset Key
  listeners : List Ty
deriving DecidableEq

/-- The user code the machine calls into: the three virtual members of the
concrete state classes and the call of a stored handler on an event. -/
structure UserCode (Key Ty Handler Ev Owner : Type) where
  subscribe : State Key → StateMachine Key Ty Handler Owner → StateMachine Key Ty Handler Owner
  onEnter : State Key → StateMachine Key Ty Handler Owner → StateMachine Key Ty Handler Owner
  onExit : State Key → StateMachine Key Ty Handler Owner → StateMachine Key Ty Handler Owner
  call : Handler → Ev → StateMachine Key Ty Handler Owner → StateMachine Key Ty Handler Owner

namespace StateMachine

variable {Key Ty Handler Ev Owner : Type} [DecidableEq Key] [DecidableEq Ty]

/-- The constructor `StateMachine(Owner& theOwner)` with the default member
initialisers. -/
def new (theOwner : Owner) : StateMachine Key Ty Handler Owner where
  owner := theOwner
  m_enabled := true
  m_currState := none
  m_prevState := none
  m_subscriptions := []
  m_states := []
  m_prohibited := ∅
  listeners := []

/-- The body of the listener that `subscribe<EventType>` hands to the event
manager, run on one published event `e` of the type `tid`. -/
def listener (U : UserCode Key Ty Handler Ev Owner) (tid : Ty) (e : Ev)
    (m : StateMachine Key Ty Handler Owner) : Option (StateMachine Key Ty Handler Owner) :=
  if !m.m_enabled then some m
  else
    -- auto& subs = m_subscriptions[tid];
    let m1 : StateMachine Key Ty Handler Owner :=
      match UMap.find m.m_subscriptions tid with
      | some _ => m
      | none => { m with m_subscriptions := UMap.assign m.m_subscriptions tid [] }
    let subs := (UMap.find m1.m_subscriptions tid).getD []
    -- auto entry = subs.find(m_currState->KEY);
    match m1.m_currState with
    | none => none
    | some cur =>
      match UMap.find subs cur.KEY with
      | some action => some (U.call action e m1)
      | none => some m1

/-- The member `subscribe<EventType>(state, action)`, `tid` being
`typeid(EventType)`. -/
def subscribe (tid : Ty) (state : State Key) (action : Handler)
    (m : StateMachine Key Ty Handler Owner) : StateMachine Key Ty Handler Owner :=
  match UMap.find m.m_subscriptions tid with
  | none =>
    -- EM.subscribe<EventType>(*this, listener)
    let m1 := { m with listeners := m.listeners ++ [tid] }
    -- m_subscriptions[tid][state.KEY] = std::move(action)
    { m1 with m_subscriptions :=
        UMap.assign m1.m_subscriptions tid (UMap.assign [] state.KEY action) }
  | some subs =>
    -- entry->second[state.KEY] = std::move(action)
    { m with m_subscriptions :=
        UMap.assign m.m_subscriptions tid (UMap.assign subs state.KEY action) }

/-- The member `add(state)`. -/
def add (U : UserCode Key Ty Handler Ev Owner) (state : State Key)
    (m : StateMachine Key Ty Handler Owner) : StateMachine Key Ty Handler Owner :=
  let m1 := match m.m_currState with
    | none => { m with m_currState := some state }
    | some _ => m
  -- state->owner = &owner; state->machine = this; state->subscribe();
  let m2 := U.subscribe state m1
  { m2 with m_states := UMap.emplace m2.m_states state.KEY state }

/-- The member `prohibitState(key)`. -/
def prohibitState (key : Key) (m : StateMachine Key Ty Handler Owner) :
    StateMachine Key Ty Handler Owner :=
  { m with m_prohibited := insert key m.m_prohibited }

/-- The member `prohibitStates(keys)`. -/
def prohibitStates (keys : Finset Key) (m : StateMachine Key Ty Handler Owner) :
    StateMachine Key Ty Handler Owner :=
  { m with m_prohibited := keys }

/-- The member `prohibitAllStates()`: the loop over `m_states`. -/
def prohibitAllStates (m : StateMachine Key Ty Handler Owner) :
    StateMachine Key Ty Handler Owner :=
  (UMap.keys m.m_states).foldl (fun acc _key => prohibitState _key acc) m

/-- The member `allowState(key)`. -/
def allowState (key : Key) (m : StateMachine Key Ty Handler Owner) :
    StateMachine Key Ty Handler Owner :=
  { m with m_prohibited := m.m_prohibited.erase key }

/-- Two `allowState` calls commute, so the loop of `allowOnly` over an
unordered set has one result whatever the iteration order. -/
instance allowState_leftCommutative :
    LeftCommutative (allowState : Key → StateMachine Key Ty Handler Owner → _) where
  left_comm a b m := by
    simp only [allowState]
    rw [Finset.erase_right_comm]

/-- The member `allowOnly(Key key)`. -/
def allowOnly (key : Key) (m : StateMachine Key Ty Handler Owner) :
    StateMachine Key Ty Handler Owner :=
  allowState key (prohibitAllStates m)

/-- The member `allowOnly(std::unordered_set<Key>&& keys)`: `prohibitAllStates`,
then the loop over `keys`. -/
def allowOnlySet (keys : Finset Key) (m : StateMachine Key Ty Handler Owner) :
    StateMachine Key Ty Handler Owner :=
  Multiset.foldr allowState (prohibitAllStates m) keys.val

/-- The member `allowAllStates()`. -/
def allowAllStates (m : StateMachine Key Ty Handler Owner) :
    StateMachine Key Ty Handler Owner :=
  { m with m_prohibited := ∅ }

/-- The member `setEnabled(enabled)`. -/
def setEnabled (enabled : Bool) (m : StateMachine Key Ty Handler Owner) :
    StateMachine Key Ty Handler Owner :=
  { m with m_enabled := enabled }

/-- The member `setNext(key)`.  The guard evaluates `m_prohibited.contains(key)`
first and reads `m_currState->KEY` only when that is false; on a null
`m_currState` the read is a fault. -/
def setNext (U : UserCode Key Ty Handler Ev Owner) (key : Key)
    (m : StateMachine Key Ty Handler Owner) : Option (StateMachine Key Ty Handler Owner) :=
  if key ∈ m.m_prohibited then some m
  else
    match m.m_currState with
    | none => none
    | some cur =>
      if cur.KEY = key then some m
      else
        match UMap.find m.m_states key with
        | none => some m
        | some dest =>
          let m1 := U.onExit cur m
          let m2 := allowAllStates m1
          let m3 := { m2 with m_prevState := m2.m_currState }
          let m4 := { m3 with m_currState := some dest }
          some (U.onEnter dest m4)

/-- The member `getCurrentState()`. -/
def getCurrentState (m : StateMachine Key Ty Handler Owner) : Option (State Key) :=
  m.m_currState

/-- The member `getPreviousState()`. -/
def getPreviousState (m : StateMachine Key Ty Handler Owner) : Option (State Key) :=
  m.m_prevState

end StateMachine

/-- A sequence of `add` calls, in the order of the list. -/
def addAll {Key Ty Handler Ev Owner : Type} [DecidableEq Key]
    (U : UserCode Key Ty Handler Ev Owner) (states : List (State Key))
    (m : StateMachine Key Ty Handler Owner) : StateMachine Key Ty Handler Owner :=
  states.foldl (fun acc s => StateMachine.add U s acc) m

/-! ## The event bus and sequences of operations -/

/-- Run `f` on a value `n` times in a row, stopping at the first fault. -/
def repeatM {α : Type} : Nat → (α → Option α) → α → Option α
  | 0, _, a => some a
  | n + 1, f, a => (f a).bind (repeatM n f)

/-- Modelled from the spec: the event manager `EM` (EventManager.hpp is not in
src/).  Publishing an event of the type `tid` calls, synchronously, every
listener registered for `tid`; `m.listeners` has one item per listener this
machine has registered. -/
def publish {Key Ty Handler Ev Owner : Type} [DecidableEq Key] [DecidableEq Ty]
    (U : UserCode Key Ty Handler Ev Owner) (tid : Ty) (e : Ev)
    (m : StateMachine Key Ty Handler Owner) : Option (StateMachine Key Ty Handler Owner) :=
  repeatM (m.listeners.count tid) (StateMachine.listener U tid e) m

/-- The handler stored for the pair of an event type and a key, if any. -/
def handlerAt {Key Ty Handler Owner : Type} [DecidableEq Key] [DecidableEq Ty]
    (m : StateMachine Key Ty Handler Owner) (tid : Ty) (key : Key) : Option Handler :=
  (UMap.find m.m_subscriptions tid).bind (fun subs => UMap.find subs key)

/-- One operation on a machine: a call of a public member, or the bus
publishing an event. -/
inductive Op (Key Ty Handler Ev : Type) where
  | add (s : State Key)
  | subscribe (tid : Ty) (s : State Key) (action : Handler)
  | prohibitState (key : Key)
  | prohibitStates (keys : Finset Key)
  | prohibitAllStates
  | allowState (key : Key)
  | allowOnly (key : Key)
  | allowOnlySet (keys : Finset Key)
  | allowAllStates
  | setEnabled (enabled : Bool)
  | setNext (key : Key)
  | publish (tid : Ty) (e : Ev)

/-- The effect of one operation; `none` is a fault. -/
def step {Key Ty Handler Ev Owner : Type} [DecidableEq Key] [DecidableEq Ty]
    (U : UserCode Key Ty Handler Ev Owner) :
    Op Key Ty Handler Ev → StateMachine Key Ty Handler Owner →
      Option (StateMachine Key Ty Handler Owner)
  | Op.add s, m => some (StateMachine.add U s m)
  | Op.subscribe tid s action, m => some (StateMachine.subscribe tid s action m)
  | Op.prohibitState key, m => some (StateMachine.prohibitState key m)
  | Op.prohibitStates keys, m => some (StateMachine.prohibitStates keys m)
  | Op.prohibitAllStates, m => some (StateMachine.prohibitAllStates m)
  | Op.allowState key, m => some (StateMachine.allowState key m)
  | Op.allowOnly key, m => some (StateMachine.allowOnly key m)
  | Op.allowOnlySet keys, m => some (StateMachine.allowOnlySet keys m)
  | Op.allowAllStates, m => some (StateMachine.allowAllStates m)
  | Op.setEnabled enabled, m => some (StateMachine.setEnabled enabled m)
  | Op.setNext key, m => StateMachine.setNext U key m
  | Op.publish tid e, m => publish U tid e m

/-- The effect of a sequence of operations, first to last. -/
def run {Key Ty Handler Ev Owner : Type} [DecidableEq Key] [DecidableEq Ty]
    (U : UserCode Key Ty Handler Ev Owner) :
    List (Op Key Ty Handler Ev) → StateMachine Key Ty Handler Owner →
      Option (StateMachine Key Ty Handler Owner)
  | [], m => some m
  | op :: rest, m => (step U op m).bind (run U rest)

/-! ## User code that records the calls it receives -/

/-- One call from the machine into user code. -/
inductive Call (Key Handler Ev : Type) where
  | subscribe (s : State Key)
  | onEnter (s : State Key)
  | onExit (s : State Key)
  | handler (action : Handler) (e : Ev)
deriving DecidableEq

/-- User code that does not call back into the machine except as the header
intends: every hook and every handler appends its own call to the owner, which
is the log of calls, and `subscribe()` of a state `s` registers the handlers
`installs s` through `machine->subscribe<E>(*this, action)`. -/
def recording {Key Ty Handler Ev : Type} [DecidableEq Key] [DecidableEq Ty]
    (installs : State Key → List (Ty × Handler)) :
    UserCode Key Ty Handler Ev (List (Call Key Handler Ev)) where
  subscribe s m :=
    (installs s).foldl (fun acc p => StateMachine.subscribe p.1 s p.2 acc)
      { m with owner := m.owner ++ [Call.subscribe s] }
  onEnter s m := { m with owner := m.owner ++ [Call.onEnter s] }
  onExit s m := { m with owner := m.owner ++ [Call.onExit s] }
  call action e m := { m with owner := m.owner ++ [Call.handler action e] }

/-- The state of the last `onExit` call in a log of calls, if there is one. -/
def lastExited {Key Handler Ev : Type} : List (Call Key Handler Ev) → Option (State Key)
  | [] => none
  | c :: rest =>
    match lastExited rest with
    | some s => some s
    | none =>
      match c with
      | Call.onExit s => some s
      | _ => none

/-- User code whose hooks call back into the machine: `onExit()` of a state `s`
calls `machine->prohibitState(atExit s)`, `onEnter()` calls
`machine->prohibitState(atEnter s)`; `subscribe()` and the handlers do
nothing. -/
def prohibiting {Key Ty Handler Ev Owner : Type} [DecidableEq Key]
    (atExit atEnter : State Key → Key) : UserCode Key Ty Handler Ev Owner where
  subscribe _ m := m
  onEnter s m := StateMachine.prohibitState (atEnter s) m
  onExit s m := StateMachine.prohibitState (atExit s) m
  call _ _ m := m

/-! ## A concrete machine: Idle, Running, Stopped -/

/-- The keys of the example machine. -/
inductive Phase where
  | Idle
  | Running
  | Stopped
deriving DecidableEq, Repr

/-- The machine type of the examples: event types, handlers and events are
numbers, the owner is the log of calls. -/
abbrev DemoMachine := StateMachine Phase Nat Nat (List (Call Phase Nat Nat))

/-- The three states of the example machine and a second Running state. -/
def sIdle : State Phase := ⟨Phase.Idle, 0⟩
def sRunning : State Phase := ⟨Phase.Running, 1⟩
def sStopped : State Phase := ⟨Phase.Stopped, 2⟩
def sRunning2 : State Phase := ⟨Phase.Running, 3⟩

/-- The handlers the example states register: Running registers handler 11 and
Stopped handler 12 for event type 7, the second Running state handler 13. -/
def demoInstalls (s : State Phase) : List (Nat × Nat) :=
  if s = sRunning then [(7, 11)]
  else if s = sStopped then [(7, 12)]
  else if s = sRunning2 then [(7, 13)]
  else []

/-- The recording user code of the example. -/
def demoCode : UserCode Phase Nat Nat Nat (List (Call Phase Nat Nat)) :=
  recording demoInstalls

/-- A freshly constructed example machine. -/
def demoNew : DemoMachine := StateMachine.new []

/-- The example machine after `add(Idle)`, `add(Running)`, `add(Stopped)`. -/
def demo : DemoMachine :=
  StateMachine.add demoCode sStopped
    (StateMachine.add demoCode sRunning (StateMachine.add demoCode sIdle demoNew))

/-- The example machine after a further `setNext(Running)`. -/
def demoRunning : DemoMachine :=
  (StateMachine.setNext demoCode Phase.Running demo).getD demo

/-- The operations that build the example machine and move it to Running. -/
def demoOps : List (Op Phase Nat Nat Nat) :=
  [Op.add sIdle, Op.add sRunning, Op.add sStopped, Op.setNext Phase.Running]

/-! ## Invariants of the machines built by operations -/

/-- The bus invariant: the machine has registered one listener for each event
type that has a table in `m_subscriptions`, and none for any other type. -/
def BusInv {Key Ty Handler Owner : Type} [DecidableEq Ty]
    (m : StateMachine Key Ty Handler Owner) : Prop :=
  ∀ E : Ty, m.listeners.count E = if (UMap.find m.m_subscriptions E).isSome then 1 else 0

/-- The invariant of the machines that operations build from a fresh machine
with an empty log, under the recording user code. -/
structure WellFormed {Key Ty Handler Ev : Type} [DecidableEq Key] [DecidableEq Ty]
    (m : StateMachine Key Ty Handler (List (Call Key Handler Ev))) : Prop where
  own : ∀ k s, UMap.find m.m_states k = some s → s.KEY = k
  cur : ∀ c, m.m_currState = some c → UMap.find m.m_states c.KEY = some c
  prev : ∀ p, m.m_prevState = some p → UMap.find m.m_states p.KEY = some p
  null : m.m_currState = none ↔ m.m_states = []
  bus : BusInv m
  exited : m.m_prevState = lastExited m.owner

/-! ## Lemmas on the tables -/

namespace UMap

variable {K V : Type} [DecidableEq K]

/-- A key that is present is not inserted again. -/
theorem emplace_of_find_some (m : UMap K V) (k : K) (v w : V) (h : find m k = some w) :
    emplace m k v = m := by
  simp [emplace, h]

end UMap

/-! ## Lemmas on subscribe and add -/

namespace StateMachine

variable {Key Ty Handler Ev Owner : Type} [DecidableEq Key]

/-- The members `subscribe<EventType>` leaves alone. -/
theorem subscribe_frame [DecidableEq Ty] (tid : Ty) (s : State Key) (a : Handler)
    (m : StateMachine Key Ty Handler Owner) :
    (subscribe tid s a m).m_states = m.m_states ∧
    (subscribe tid s a m).m_currState = m.m_currState ∧
    (subscribe tid s a m).m_prevState = m.m_prevState ∧
    (subscribe tid s a m).m_prohibited = m.m_prohibited ∧
    (subscribe tid s a m).m_enabled = m.m_enabled ∧
    (subscribe tid s a m).owner = m.owner := by
  unfold subscribe
  cases UMap.find m.m_subscriptions tid <;> simp

/-- The members a run of `subscribe<EventType>` calls leaves alone. -/
theorem subscribe_foldl_frame [DecidableEq Ty] (s : State Key) (l : List (Ty × Handler))
    (m : StateMachine Key Ty Handler Owner) :
    (l.foldl (fun acc p => subscribe p.1 s p.2 acc) m).m_states = m.m_states ∧
    (l.foldl (fun acc p => subscribe p.1 s p.2 acc) m).m_currState = m.m_currState ∧
    (l.foldl (fun acc p => subscribe p.1 s p.2 acc) m).m_prevState = m.m_prevState ∧
    (l.foldl (fun acc p => subscribe p.1 s p.2 acc) m).m_prohibited = m.m_prohibited ∧
    (l.foldl (fun acc p => subscribe p.1 s p.2 acc) m).m_enabled = m.m_enabled ∧
    (l.foldl (fun acc p => subscribe p.1 s p.2 acc) m).owner = m.owner := by
  induction l generalizing m with
  | nil => simp
  | cons p rest ih =>
    obtain ⟨h1, h2, h3, h4, h5, h6⟩ := subscribe_frame p.1 s p.2 m
    obtain ⟨i1, i2, i3, i4, i5, i6⟩ := ih (subscribe p.1 s p.2 m)
    simp only [List.foldl_cons]
    exact ⟨i1.trans h1, i2.trans h2, i3.trans h3, i4.trans h4, i5.trans h5, i6.trans h6⟩

/-- The recorded `subscribe()` of a state appends its call to the log and
leaves the states, the pointers, the prohibition set and the flag alone. -/
theorem recording_subscribe_frame [DecidableEq Ty] (installs : State Key → List (Ty × Handler))
    (s : State Key) (m : StateMachine Key Ty Handler (List (Call Key Handler Ev))) :
    ((recording installs).subscribe s m).m_states = m.m_states ∧
    ((recording installs).subscribe s m).m_currState = m.m_currState ∧
    ((recording installs).subscribe s m).m_prevState = m.m_prevState ∧
    ((recording installs).subscribe s m).m_prohibited = m.m_prohibited ∧
    ((recording installs).subscribe s m).m_enabled = m.m_enabled ∧
    ((recording installs).subscribe s m).owner = m.owner ++ [Call.subscribe s] := by
  simpa [recording] using
    subscribe_foldl_frame s (installs s) { m with owner := m.owner ++ [Call.subscribe s] }

/-- The state map after `add` under the recording user code. -/
theorem add_recording_states [DecidableEq Ty] (installs : State Key → List (Ty × Handler))
    (s : State Key) (m : StateMachine Key Ty Handler (List (Call Key Handler Ev))) :
    (add (recording installs) s m).m_states = UMap.emplace m.m_states s.KEY s := by
  unfold add
  cases h : m.m_currState <;> simp [(recording_subscribe_frame installs s _).1]

/-- The current state after `add` under the recording user code. -/
theorem add_recording_currState [DecidableEq Ty] (installs : State Key → List (Ty × Handler))
    (s : State Key) (m : StateMachine Key Ty Handler (List (Call Key Handler Ev))) :
    (add (recording installs) s m).m_currState = some (m.m_currState.getD s) := by
  unfold add
  cases h : m.m_currState <;> simp [(recording_subscribe_frame installs s _).2.1, h]

/-- The previous state after `add` under the recording user code. -/
theorem add_recording_prevState [DecidableEq Ty] (installs : State Key → List (Ty × Handler))
    (s : State Key) (m : StateMachine Key Ty Handler (List (Call Key Handler Ev))) :
    (add (recording installs) s m).m_prevState = m.m_prevState := by
  unfold add
  cases h : m.m_currState <;> simp [(recording_subscribe_frame installs s _).2.2.1]

/-- A run of `add` calls on a machine that has a current state keeps the current
and the previous state. -/
theorem addAll_recording_pointers [DecidableEq Ty] (installs : State Key → List (Ty × Handler))
    (l : List (State Key)) (m : StateMachine Key Ty Handler (List (Call Key Handler Ev)))
    (c : State Key) (hc : m.m_currState = some c) :
    (addAll (recording installs) l m).m_currState = some c ∧
    (addAll (recording installs) l m).m_prevState = m.m_prevState := by
  induction l generalizing m with
  | nil => exact ⟨hc, rfl⟩
  | cons s rest ih =>
    have h1 : (add (recording installs) s m).m_currState = some c := by
      rw [add_recording_currState, hc]; rfl
    obtain ⟨i1, i2⟩ := ih (add (recording installs) s m) h1
    simp only [addAll, List.foldl_cons] at i1 i2 ⊢
    exact ⟨i1, i2.trans (add_recording_prevState installs s m)⟩

end StateMachine

/-! ## Lemmas on the restriction controls -/

namespace UMap

variable {K V : Type} [DecidableEq K]

/-- A key that `find` finds is among the keys. -/
theorem mem_keys_of_find_some (m : UMap K V) (k : K) (v : V) (h : find m k = some v) :
    k ∈ keys m := by
  induction m with
  | nil => simp [find] at h
  | cons p rest ih =>
    obtain ⟨k1, v1⟩ := p
    by_cases hk : k1 = k
    · simp [keys, hk]
    · simp only [find, hk, if_false] at h
      have := ih h
      simp only [keys, List.map_cons, List.mem_cons] at this ⊢
      exact Or.inr this

/-- A key that is not among the keys is not found. -/
theorem find_none_of_not_mem_keys (m : UMap K V) (k : K) (h : k ∉ keys m) :
    find m k = none := by
  cases hf : find m k with
  | none => rfl
  | some v => exact absurd (mem_keys_of_find_some m k v hf) h

end UMap

namespace StateMachine

variable {Key Ty Handler Ev Owner : Type} [DecidableEq Key]

/-- The loop of `prohibitAllStates` over a list of keys adds these keys to the
prohibition set. -/
theorem prohibit_foldl_eq (l : List Key) (m : StateMachine Key Ty Handler Owner) :
    l.foldl (fun acc _key => prohibitState _key acc) m =
      { m with m_prohibited := m.m_prohibited ∪ l.toFinset } := by
  induction l generalizing m with
  | nil => simp
  | cons a rest ih =>
    have hset : insert a m.m_prohibited ∪ rest.toFinset =
        m.m_prohibited ∪ insert a rest.toFinset := by
      ext x
      simp only [Finset.mem_union, Finset.mem_insert, List.mem_toFinset]
      tauto
    rw [List.foldl_cons, ih (prohibitState a m)]
    simp only [prohibitState, List.toFinset_cons, hset]

/-- The member `prohibitAllStates()` adds every registered key to the
prohibition set and changes nothing else. -/
theorem prohibitAllStates_eq (m : StateMachine Key Ty Handler Owner) :
    prohibitAllStates m =
      { m with m_prohibited := m.m_prohibited ∪ (UMap.keys m.m_states).toFinset } :=
  prohibit_foldl_eq (UMap.keys m.m_states) m

/-- The loop of `allowOnly` over a set of keys removes these keys from the
prohibition set. -/
theorem allow_foldr_eq (keys : Finset Key) (m : StateMachine Key Ty Handler Owner) :
    Multiset.foldr allowState m keys.val = { m with m_prohibited := m.m_prohibited \ keys } := by
  induction keys using Finset.induction_on with
  | empty => simp
  | insert ha ih =>
    rw [Finset.insert_val_of_not_mem ha, Multiset.foldr_cons, ih]
    simp only [allowState, Finset.sdiff_insert]

/-- The member `allowOnly(keys)` leaves prohibited the keys that were prohibited
or are registered, less `keys`, and changes nothing else. -/
theorem allowOnlySet_eq (keys : Finset Key) (m : StateMachine Key Ty Handler Owner) :
    allowOnlySet keys m =
      { m with m_prohibited :=
          (m.m_prohibited ∪ (UMap.keys m.m_states).toFinset) \ keys } := by
  rw [allowOnlySet, allow_foldr_eq, prohibitAllStates_eq]

end StateMachine

/-! ## Lemmas on setNext -/

namespace StateMachine

variable {Key Ty Handler Ev Owner : Type} [DecidableEq Key]

/-- A call `setNext(key)` whose guard fails, or whose key has no registered
state, returns the machine as it was, whatever the user code is. -/
theorem setNext_eq_self (U : UserCode Key Ty Handler Ev Owner)
    (m : StateMachine Key Ty Handler Owner) (cur : State Key) (key : Key)
    (hcur : m.m_currState = some cur)
    (h : key ∈ m.m_prohibited ∨ key = cur.KEY ∨ UMap.find m.m_states key = none) :
    setNext U key m = some m := by
  unfold setNext
  by_cases hp : key ∈ m.m_prohibited
  · simp [hp]
  · by_cases hk : cur.KEY = key
    · simp [hp, hcur, hk]
    · have hf : UMap.find m.m_states key = none := by
        rcases h with h | h | h
        · exact absurd h hp
        · exact absurd h.symm hk
        · exact h
      simp [hp, hcur, hk, hf]

/-- A call `setNext(key)` that passes the guard and finds a state, under the
recording user code. -/
theorem setNext_recording_eq [DecidableEq Ty] (installs : State Key → List (Ty × Handler))
    (m : StateMachine Key Ty Handler (List (Call Key Handler Ev))) (cur dest : State Key)
    (key : Key) (hcur : m.m_currState = some cur)
    (hreg : UMap.find m.m_states key = some dest)
    (hallowed : key ∉ m.m_prohibited) (hne : key ≠ cur.KEY) :
    setNext (recording installs) key m =
      some { m with
        m_prevState := some cur
        m_currState := some dest
        m_prohibited := ∅
        owner := m.owner ++ [Call.onExit cur, Call.onEnter dest] } := by
  have hk : ¬ cur.KEY = key := fun h => hne h.symm
  simp [setNext, recording, allowAllStates, hallowed, hcur, hk, hreg]

end StateMachine

/-! ## Lemmas on the tables, continued -/

namespace UMap

variable {K V : Type} [DecidableEq K]

/-- What `find` finds after `m[k] = v`. -/
theorem find_assign (m : UMap K V) (k k2 : K) (v : V) :
    find (assign m k v) k2 = if k = k2 then some v else find m k2 := by
  induction m with
  | nil => simp [assign, find]
  | cons p rest ih =>
    obtain ⟨k1, v1⟩ := p
    by_cases h1 : k1 = k
    · subst h1
      by_cases h2 : k1 = k2 <;> simp [assign, find, h2]
    · by_cases h2 : k1 = k2
      · subst h2
        have h3 : ¬ k = k1 := fun h => h1 h.symm
        simp [assign, find, h1, h3]
      · simp [assign, find, h1, h2, ih]

/-- What `find` finds after an entry is put at the end of the table. -/
theorem find_append_one (m : UMap K V) (k k2 : K) (v : V) :
    find (m ++ [(k, v)]) k2 =
      match find m k2 with
      | some w => some w
      | none => if k = k2 then some v else none := by
  induction m with
  | nil => simp [find]
  | cons p rest ih =>
    obtain ⟨k1, v1⟩ := p
    by_cases h : k1 = k2
    · simp [find, h]
    · simp [find, h, ih]

/-- What `find` finds after `emplace`: an entry that was found is found still,
and the new entry is found when its key was absent. -/
theorem find_emplace (m : UMap K V) (k k2 : K) (v : V) :
    find (emplace m k v) k2 =
      match find m k2 with
      | some w => some w
      | none => if k = k2 then some v else none := by
  unfold emplace
  cases hk : find m k with
  | some w =>
    cases h2 : find m k2 with
    | some w2 => simp [h2]
    | none =>
      have hne : ¬ k = k2 := by
        intro h; rw [h] at hk; rw [hk] at h2; cases h2
      simp [h2, hne]
  | none => simp only [find_append_one]

/-- The table is not empty after `emplace`. -/
theorem emplace_ne_nil (m : UMap K V) (k : K) (v : V) : emplace m k v ≠ [] := by
  unfold emplace
  cases hk : find m k with
  | some w =>
    intro h
    simp only at h
    rw [h] at hk
    simp [find] at hk
  | none => simp

end UMap

/-- The last exited state of a log that got one more call. -/
theorem lastExited_append_one {Key Handler Ev : Type} (l : List (Call Key Handler Ev))
    (c : Call Key Handler Ev) :
    lastExited (l ++ [c]) =
      match c with
      | Call.onExit s => some s
      | _ => lastExited l := by
  induction l with
  | nil => cases c <;> simp [lastExited]
  | cons d rest ih =>
    cases c <;> simp_all [lastExited]

namespace StateMachine

variable {Key Ty Handler Ev Owner : Type} [DecidableEq Key] [DecidableEq Ty]

/-- The tables of `m_subscriptions` after `subscribe<EventType>`. -/
theorem subscribe_find (tid t2 : Ty) (s : State Key) (a : Handler)
    (m : StateMachine Key Ty Handler Owner) :
    UMap.find (subscribe tid s a m).m_subscriptions t2 =
      if tid = t2 then some (UMap.assign ((UMap.find m.m_subscriptions tid).getD []) s.KEY a)
      else UMap.find m.m_subscriptions t2 := by
  unfold subscribe
  cases h : UMap.find m.m_subscriptions tid <;> simp [UMap.find_assign]

/-- The registered listeners after `subscribe<EventType>`. -/
theorem subscribe_listeners (tid : Ty) (s : State Key) (a : Handler)
    (m : StateMachine Key Ty Handler Owner) :
    (subscribe tid s a m).listeners =
      if (UMap.find m.m_subscriptions tid).isSome then m.listeners
      else m.listeners ++ [tid] := by
  unfold subscribe
  cases h : UMap.find m.m_subscriptions tid <;> simp

/-- The member `subscribe<EventType>` keeps the bus invariant. -/
theorem subscribe_busInv (tid : Ty) (s : State Key) (a : Handler)
    (m : StateMachine Key Ty Handler Owner) (h : BusInv m) :
    BusInv (subscribe tid s a m) := by
  intro E
  rw [subscribe_listeners, subscribe_find]
  have hE := h E
  have ht := h tid
  by_cases hEq : tid = E
  · subst hEq
    cases hf : UMap.find m.m_subscriptions tid with
    | none =>
      rw [hf] at hE
      simp only [Option.isSome_none, Bool.false_eq_true, if_false] at hE ⊢
      simp [List.count_append, hE]
    | some subs =>
      rw [hf] at hE
      simpa using hE
  · cases hf : UMap.find m.m_subscriptions tid with
    | none =>
      simp only [Option.isSome_none, Bool.false_eq_true, if_false, hEq]
      rw [List.count_append, hE]
      simp [List.count_singleton, hEq]
    | some subs =>
      simpa [hEq] using hE

/-- The stored handlers after `subscribe<EventType>`: the pair of the event type
and the key of the state gets the new handler, every other pair keeps its own. -/
theorem handlerAt_subscribe (tid t2 : Ty) (s : State Key) (k2 : Key) (a : Handler)
    (m : StateMachine Key Ty Handler Owner) :
    handlerAt (subscribe tid s a m) t2 k2 =
      if tid = t2 ∧ s.KEY = k2 then some a else handlerAt m t2 k2 := by
  unfold handlerAt
  rw [subscribe_find]
  by_cases ht : tid = t2
  · subst ht
    by_cases hk : s.KEY = k2
    · simp [UMap.find_assign, hk]
    · cases hf : UMap.find m.m_subscriptions tid <;> simp [UMap.find_assign, hk, UMap.find]
  · simp [ht]

/-- A run of `subscribe<EventType>` calls keeps the bus invariant. -/
theorem subscribe_foldl_busInv (s : State Key) (l : List (Ty × Handler))
    (m : StateMachine Key Ty Handler Owner) (h : BusInv m) :
    BusInv (l.foldl (fun acc p => subscribe p.1 s p.2 acc) m) := by
  induction l generalizing m with
  | nil => exact h
  | cons p rest ih => exact ih _ (subscribe_busInv p.1 s p.2 m h)

/-- A run of `subscribe<EventType>` calls for other event types keeps the
handler of a pair. -/
theorem handlerAt_subscribe_foldl_other (E : Ty) (s : State Key) (k : Key)
    (l : List (Ty × Handler)) (m : StateMachine Key Ty Handler Owner)
    (hl : ∀ p ∈ l, p.1 ≠ E) :
    handlerAt (l.foldl (fun acc p => subscribe p.1 s p.2 acc) m) E k = handlerAt m E k := by
  induction l generalizing m with
  | nil => rfl
  | cons p rest ih =>
    rw [List.foldl_cons, ih _ (fun q hq => hl q (List.mem_cons_of_mem _ hq)),
      handlerAt_subscribe]
    have hp : ¬ p.1 = E := hl p (List.mem_cons_self _ _)
    simp [hp]

/-- A run of `subscribe<EventType>` calls of a state keeps the handlers stored
under the keys of other states. -/
theorem handlerAt_subscribe_foldl_key (E : Ty) (s : State Key) (k : Key)
    (l : List (Ty × Handler)) (m : StateMachine Key Ty Handler Owner)
    (hk : s.KEY ≠ k) :
    handlerAt (l.foldl (fun acc p => subscribe p.1 s p.2 acc) m) E k = handlerAt m E k := by
  induction l generalizing m with
  | nil => rfl
  | cons p rest ih =>
    rw [List.foldl_cons, ih, handlerAt_subscribe]
    simp [hk]

end StateMachine

/-! ## Lemmas on the operations under the recording user code -/

namespace StateMachine

variable {Key Ty Handler Ev : Type} [DecidableEq Key] [DecidableEq Ty]

/-- A call `setNext(key)` that returns either changed nothing or committed. -/
theorem setNext_recording_cases (installs : State Key → List (Ty × Handler))
    (m m2 : StateMachine Key Ty Handler (List (Call Key Handler Ev))) (key : Key)
    (h : setNext (recording installs) key m = some m2) :
    m2 = m ∨ ∃ cur dest, m.m_currState = some cur ∧ UMap.find m.m_states key = some dest ∧
      key ∉ m.m_prohibited ∧ key ≠ cur.KEY ∧
      m2 = { m with
        m_prevState := some cur
        m_currState := some dest
        m_prohibited := ∅
        owner := m.owner ++ [Call.onExit cur, Call.onEnter dest] } := by
  by_cases hp : key ∈ m.m_prohibited
  · left
    simp only [setNext, hp, if_true, Option.some.injEq] at h
    exact h.symm
  · cases hc : m.m_currState with
    | none => simp [setNext, hp, hc] at h
    | some cur =>
      by_cases hk : key = cur.KEY
      · left
        rw [setNext_eq_self _ m cur key hc (Or.inr (Or.inl hk))] at h
        exact (Option.some.inj h).symm
      · cases hf : UMap.find m.m_states key with
        | none =>
          left
          rw [setNext_eq_self _ m cur key hc (Or.inr (Or.inr hf))] at h
          exact (Option.some.inj h).symm
        | some dest =>
          right
          rw [setNext_recording_eq installs m cur dest key hc hf hp hk] at h
          exact ⟨cur, dest, rfl, rfl, hp, hk, (Option.some.inj h).symm⟩

/-- The listener of an event type that has a table either changes nothing or
calls one handler. -/
theorem listener_recording_cases (installs : State Key → List (Ty × Handler))
    (m m2 : StateMachine Key Ty Handler (List (Call Key Handler Ev))) (tid : Ty) (e : Ev)
    (hs : (UMap.find m.m_subscriptions tid).isSome = true)
    (h : listener (recording installs) tid e m = some m2) :
    m2 = m ∨ ∃ a, m2 = { m with owner := m.owner ++ [Call.handler a e] } := by
  obtain ⟨subs, hsub⟩ := Option.isSome_iff_exists.mp hs
  unfold listener at h
  cases hen : m.m_enabled with
  | false =>
    left
    simp only [hen, Bool.not_false, if_true, Option.some.injEq] at h
    exact h.symm
  | true =>
    simp only [hen, hsub, Bool.not_true, Bool.false_eq_true, if_false, Option.getD_some] at h
    cases hc : m.m_currState with
    | none => simp [hc] at h
    | some cur =>
      simp only [hc] at h
      cases hf : UMap.find subs cur.KEY with
      | none =>
        left
        simp only [hf, Option.some.injEq] at h
        exact h.symm
      | some a =>
        right
        simp only [hf, Option.some.injEq, recording] at h
        refine ⟨a, ?_⟩
        rw [← h, hen, hc]

/-- Publishing an event on a machine that has the bus invariant either changes
nothing or calls one handler. -/
theorem publish_recording_cases (installs : State Key → List (Ty × Handler))
    (m m2 : StateMachine Key Ty Handler (List (Call Key Handler Ev))) (tid : Ty) (e : Ev)
    (hb : BusInv m) (h : publish (recording installs) tid e m = some m2) :
    m2 = m ∨ ∃ a, m2 = { m with owner := m.owner ++ [Call.handler a e] } := by
  unfold publish at h
  have hc := hb tid
  cases hs : (UMap.find m.m_subscriptions tid).isSome with
  | false =>
    left
    rw [hs] at hc
    simp only [Bool.false_eq_true, if_false] at hc
    rw [hc] at h
    exact (Option.some.inj h).symm
  | true =>
    rw [hs] at hc
    simp only [if_true] at hc
    rw [hc] at h
    simp only [repeatM] at h
    cases hl : listener (recording installs) tid e m with
    | none => simp [hl] at h
    | some m3 =>
      rw [hl] at h
      simp only [Option.some_bind, Option.some.injEq] at h
      subst h
      exact listener_recording_cases installs m m3 tid e hs hl

/-- The log after `add` under the recording user code. -/
theorem add_recording_owner (installs : State Key → List (Ty × Handler))
    (s : State Key) (m : StateMachine Key Ty Handler (List (Call Key Handler Ev))) :
    (add (recording installs) s m).owner = m.owner ++ [Call.subscribe s] := by
  unfold add
  cases h : m.m_currState <;> simp [(recording_subscribe_frame installs s _).2.2.2.2.2]

/-- The recorded `subscribe()` of a state keeps the bus invariant. -/
theorem recording_subscribe_busInv (installs : State Key → List (Ty × Handler))
    (s : State Key) (m : StateMachine Key Ty Handler (List (Call Key Handler Ev)))
    (h : BusInv m) : BusInv ((recording installs).subscribe s m) :=
  subscribe_foldl_busInv s (installs s) { m with owner := m.owner ++ [Call.subscribe s] } h

/-- The member `add` keeps the bus invariant. -/
theorem add_recording_busInv (installs : State Key → List (Ty × Handler))
    (s : State Key) (m : StateMachine Key Ty Handler (List (Call Key Handler Ev)))
    (h : BusInv m) : BusInv (add (recording installs) s m) := by
  unfold add
  cases hc : m.m_currState with
  | none =>
    exact recording_subscribe_busInv installs s { m with m_currState := some s } h
  | some c => exact recording_subscribe_busInv installs s m h

end StateMachine

/-! ## The invariant holds of every machine built by operations -/

section invariant

open StateMachine

variable {Key Ty Handler Ev : Type} [DecidableEq Key] [DecidableEq Ty]

/-- A fresh machine with an empty log is well formed. -/
theorem wellFormed_new :
    WellFormed (new [] : StateMachine Key Ty Handler (List (Call Key Handler Ev))) where
  own := by intro k s h; simp [new, UMap.find] at h
  cur := by intro c h; simp [new] at h
  prev := by intro p h; simp [new] at h
  null := by simp [new]
  bus := by intro E; simp [new, UMap.find]
  exited := by simp [new, lastExited]

/-- A new prohibition set keeps a machine well formed. -/
theorem wellFormed_prohibited (m : StateMachine Key Ty Handler (List (Call Key Handler Ev)))
    (P : Finset Key) (h : WellFormed m) : WellFormed { m with m_prohibited := P } :=
  ⟨h.own, h.cur, h.prev, h.null, h.bus, h.exited⟩

/-- One more handler call in the log keeps a machine well formed. -/
theorem wellFormed_handler_call (m : StateMachine Key Ty Handler (List (Call Key Handler Ev)))
    (a : Handler) (e : Ev) (h : WellFormed m) :
    WellFormed { m with owner := m.owner ++ [Call.handler a e] } :=
  ⟨h.own, h.cur, h.prev, h.null, h.bus, by
    rw [lastExited_append_one]; exact h.exited⟩

/-- The member `subscribe<EventType>` keeps a machine well formed. -/
theorem wellFormed_subscribe (m : StateMachine Key Ty Handler (List (Call Key Handler Ev)))
    (tid : Ty) (s : State Key) (a : Handler) (h : WellFormed m) :
    WellFormed (subscribe tid s a m) := by
  obtain ⟨f1, f2, f3, _, _, f6⟩ := subscribe_frame tid s a m
  refine ⟨?_, ?_, ?_, ?_, subscribe_busInv tid s a m h.bus, ?_⟩
  · rw [f1]; exact h.own
  · rw [f1, f2]; exact h.cur
  · rw [f1, f3]; exact h.prev
  · rw [f1, f2]; exact h.null
  · rw [f3, f6]; exact h.exited

/-- The member `add` keeps a machine well formed. -/
theorem wellFormed_add (installs : State Key → List (Ty × Handler))
    (m : StateMachine Key Ty Handler (List (Call Key Handler Ev))) (s : State Key)
    (h : WellFormed m) : WellFormed (add (recording installs) s m) := by
  have keep : ∀ k t, UMap.find m.m_states k = some t →
      UMap.find (UMap.emplace m.m_states s.KEY s) k = some t := by
    intro k t hkt
    rw [UMap.find_emplace, hkt]
  refine ⟨?_, ?_, ?_, ?_, add_recording_busInv installs s m h.bus, ?_⟩
  · intro k t hkt
    rw [add_recording_states, UMap.find_emplace] at hkt
    cases hf : UMap.find m.m_states k with
    | some w =>
      rw [hf] at hkt
      simp only [Option.some.injEq] at hkt
      subst hkt
      exact h.own k w hf
    | none =>
      rw [hf] at hkt
      by_cases hk : s.KEY = k
      · simp only [hk, if_true, Option.some.injEq] at hkt
        subst hkt
        exact hk
      · simp [hk] at hkt
  · intro c hc
    rw [add_recording_currState] at hc
    rw [add_recording_states]
    cases hm : m.m_currState with
    | some c0 =>
      rw [hm] at hc
      simp only [Option.getD_some, Option.some.injEq] at hc
      subst hc
      exact keep _ _ (h.cur c0 hm)
    | none =>
      rw [hm] at hc
      simp only [Option.getD_none, Option.some.injEq] at hc
      subst hc
      rw [h.null.mp hm, UMap.find_emplace]
      simp [UMap.find]
  · intro p hp
    rw [add_recording_prevState] at hp
    rw [add_recording_states]
    exact keep _ _ (h.prev p hp)
  · rw [add_recording_currState, add_recording_states]
    constructor
    · intro hn; cases hn
    · intro hn; exact absurd hn (UMap.emplace_ne_nil _ _ _)
  · rw [add_recording_prevState, add_recording_owner, lastExited_append_one]
    exact h.exited

/-- A committed transition keeps a machine well formed. -/
theorem wellFormed_commit (m : StateMachine Key Ty Handler (List (Call Key Handler Ev)))
    (cur dest : State Key) (key : Key) (h : WellFormed m)
    (hcur : m.m_currState = some cur) (hreg : UMap.find m.m_states key = some dest) :
    WellFormed { m with
      m_prevState := some cur
      m_currState := some dest
      m_prohibited := ∅
      owner := m.owner ++ [Call.onExit cur, Call.onEnter dest] } := by
  refine ⟨h.own, ?_, ?_, ?_, h.bus, ?_⟩
  · intro c hc
    simp only [Option.some.injEq] at hc
    subst hc
    show UMap.find m.m_states dest.KEY = some dest
    rw [h.own key dest hreg]
    exact hreg
  · intro p hp
    simp only [Option.some.injEq] at hp
    subst hp
    exact h.cur cur hcur
  · constructor
    · intro hn; cases hn
    · intro hn
      have h1 : m.m_currState = none := h.null.mpr hn
      rw [hcur] at h1
      cases h1
  · show some cur = lastExited (m.owner ++ [Call.onExit cur, Call.onEnter dest])
    have h2 : m.owner ++ [Call.onExit cur, Call.onEnter dest] =
        (m.owner ++ [Call.onExit cur]) ++ [Call.onEnter dest] := by simp
    rw [h2, lastExited_append_one, lastExited_append_one]

/-- Every operation keeps a machine well formed. -/
theorem wellFormed_step (installs : State Key → List (Ty × Handler))
    (op : Op Key Ty Handler Ev)
    (m m2 : StateMachine Key Ty Handler (List (Call Key Handler Ev)))
    (h : WellFormed m) (hs : step (recording installs) op m = some m2) : WellFormed m2 := by
  cases op with
  | add s =>
    simp only [step, Option.some.injEq] at hs
    subst hs
    exact wellFormed_add installs m s h
  | subscribe tid s a =>
    simp only [step, Option.some.injEq] at hs
    subst hs
    exact wellFormed_subscribe m tid s a h
  | prohibitState k =>
    simp only [step, Option.some.injEq] at hs
    subst hs
    exact wellFormed_prohibited m _ h
  | prohibitStates K =>
    simp only [step, Option.some.injEq] at hs
    subst hs
    exact wellFormed_prohibited m _ h
  | prohibitAllStates =>
    simp only [step, Option.some.injEq] at hs
    subst hs
    rw [prohibitAllStates_eq]
    exact wellFormed_prohibited m _ h
  | allowState k =>
    simp only [step, Option.some.injEq] at hs
    subst hs
    exact wellFormed_prohibited m _ h
  | allowOnly k =>
    simp only [step, Option.some.injEq] at hs
    subst hs
    rw [allowOnly, prohibitAllStates_eq]
    exact wellFormed_prohibited m _ h
  | allowOnlySet K =>
    simp only [step, Option.some.injEq] at hs
    subst hs
    rw [allowOnlySet_eq]
    exact wellFormed_prohibited m _ h
  | allowAllStates =>
    simp only [step, Option.some.injEq] at hs
    subst hs
    exact wellFormed_prohibited m _ h
  | setEnabled b =>
    simp only [step, Option.some.injEq] at hs
    subst hs
    exact ⟨h.own, h.cur, h.prev, h.null, h.bus, h.exited⟩
  | setNext k =>
    simp only [step] at hs
    rcases setNext_recording_cases installs m m2 k hs with h1 | ⟨cur, dest, hc, hr, _, _, h1⟩
    · rw [h1]; exact h
    · rw [h1]; exact wellFormed_commit m cur dest k h hc hr
  | publish tid e =>
    simp only [step] at hs
    rcases publish_recording_cases installs m m2 tid e h.bus hs with h1 | ⟨a, h1⟩
    · rw [h1]; exact h
    · rw [h1]; exact wellFormed_handler_call m a e h

/-- Every sequence of operations keeps a machine well formed. -/
theorem wellFormed_run (installs : State Key → List (Ty × Handler))
    (ops : List (Op Key Ty Handler Ev))
    (m m2 : StateMachine Key Ty Handler (List (Call Key Handler Ev)))
    (h : WellFormed m) (hr : run (recording installs) ops m = some m2) : WellFormed m2 := by
  induction ops generalizing m with
  | nil =>
    simp only [run, Option.some.injEq] at hr
    subst hr
    exact h
  | cons op rest ih =>
    simp only [run] at hr
    cases hs : step (recording installs) op m with
    | none => simp [hs] at hr
    | some m1 =>
      rw [hs] at hr
      exact ih m1 (wellFormed_step installs op m m1 h hs) hr

/-- Every machine built by operations from a fresh machine with an empty log is
well formed. -/
theorem wellFormed_of_run (installs : State Key → List (Ty × Handler))
    (ops : List (Op Key Ty Handler Ev))
    (m : StateMachine Key Ty Handler (List (Call Key Handler Ev)))
    (hr : run (recording installs) ops (new []) = some m) : WellFormed m :=
  wellFormed_run installs ops (new []) m wellFormed_new hr

/-- What one operation does to the two pointers and to the last exited state of
the log: it leaves them alone, or it is the first `add`, which sets the current
state, or it is a `setNext` that commits. -/
theorem step_recording_cases (installs : State Key → List (Ty × Handler))
    (op : Op Key Ty Handler Ev)
    (m m2 : StateMachine Key Ty Handler (List (Call Key Handler Ev)))
    (hb : BusInv m) (hs : step (recording installs) op m = some m2) :
    (m2.m_currState = m.m_currState ∧ m2.m_prevState = m.m_prevState ∧
      lastExited m2.owner = lastExited m.owner ∧
      ∀ s, op = Op.add s → m.m_currState ≠ none) ∨
    (∃ s, op = Op.add s ∧ m.m_currState = none ∧ m2.m_currState = some s ∧
      m2.m_prevState = m.m_prevState ∧ lastExited m2.owner = lastExited m.owner) ∨
    (∃ k cur dest, op = Op.setNext k ∧ m.m_currState = some cur ∧
      UMap.find m.m_states k = some dest ∧ k ∉ m.m_prohibited ∧ k ≠ cur.KEY ∧
      m2 = { m with
        m_prevState := some cur
        m_currState := some dest
        m_prohibited := ∅
        owner := m.owner ++ [Call.onExit cur, Call.onEnter dest] }) := by
  have quiet : ∀ P : Finset Key, ∀ b : Bool,
      m2 = { m with m_prohibited := P, m_enabled := b } →
      (m2.m_currState = m.m_currState ∧ m2.m_prevState = m.m_prevState ∧
        lastExited m2.owner = lastExited m.owner) := by
    intro P b h
    rw [h]
    exact ⟨rfl, rfl, rfl⟩
  cases op with
  | add s =>
    simp only [step, Option.some.injEq] at hs
    subst hs
    have ho : lastExited (add (recording installs) s m).owner = lastExited m.owner := by
      rw [add_recording_owner, lastExited_append_one]
    cases hc : m.m_currState with
    | none =>
      right; left
      refine ⟨s, rfl, rfl, ?_, add_recording_prevState installs s m, ho⟩
      rw [add_recording_currState, hc]; rfl
    | some c =>
      left
      refine ⟨?_, add_recording_prevState installs s m, ho, ?_⟩
      · rw [add_recording_currState, hc]; rfl
      · intro _ _ hn; cases hn
  | subscribe tid s a =>
    simp only [step, Option.some.injEq] at hs
    subst hs
    obtain ⟨_, f2, f3, _, _, f6⟩ := subscribe_frame tid s a m
    left
    refine ⟨f2, f3, by rw [f6], ?_⟩
    intro _ h; cases h
  | prohibitState k =>
    simp only [step, Option.some.injEq] at hs
    obtain ⟨h1, h2, h3⟩ := quiet (insert k m.m_prohibited) m.m_enabled hs.symm
    exact Or.inl ⟨h1, h2, h3, by intro _ h; cases h⟩
  | prohibitStates K =>
    simp only [step, Option.some.injEq] at hs
    obtain ⟨h1, h2, h3⟩ := quiet K m.m_enabled hs.symm
    exact Or.inl ⟨h1, h2, h3, by intro _ h; cases h⟩
  | prohibitAllStates =>
    simp only [step, Option.some.injEq, prohibitAllStates_eq] at hs
    obtain ⟨h1, h2, h3⟩ := quiet _ m.m_enabled hs.symm
    exact Or.inl ⟨h1, h2, h3, by intro _ h; cases h⟩
  | allowState k =>
    simp only [step, Option.some.injEq] at hs
    obtain ⟨h1, h2, h3⟩ := quiet (m.m_prohibited.erase k) m.m_enabled hs.symm
    exact Or.inl ⟨h1, h2, h3, by intro _ h; cases h⟩
  | allowOnly k =>
    simp only [step, Option.some.injEq, allowOnly, prohibitAllStates_eq] at hs
    obtain ⟨h1, h2, h3⟩ := quiet _ m.m_enabled hs.symm
    exact Or.inl ⟨h1, h2, h3, by intro _ h; cases h⟩
  | allowOnlySet K =>
    simp only [step, Option.some.injEq, allowOnlySet_eq] at hs
    obtain ⟨h1, h2, h3⟩ := quiet _ m.m_enabled hs.symm
    exact Or.inl ⟨h1, h2, h3, by intro _ h; cases h⟩
  | allowAllStates =>
    simp only [step, Option.some.injEq] at hs
    obtain ⟨h1, h2, h3⟩ := quiet ∅ m.m_enabled hs.symm
    exact Or.inl ⟨h1, h2, h3, by intro _ h; cases h⟩
  | setEnabled b =>
    simp only [step, Option.some.injEq] at hs
    obtain ⟨h1, h2, h3⟩ := quiet m.m_prohibited b hs.symm
    exact Or.inl ⟨h1, h2, h3, by intro _ h; cases h⟩
  | setNext k =>
    simp only [step] at hs
    rcases setNext_recording_cases installs m m2 k hs with
      h1 | ⟨cur, dest, hc, hr, hp, hk, h1⟩
    · left
      rw [h1]
      exact ⟨rfl, rfl, rfl, by intro _ h; cases h⟩
    · right; right
      exact ⟨k, cur, dest, rfl, hc, hr, hp, hk, h1⟩
  | publish tid e =>
    simp only [step] at hs
    left
    rcases publish_recording_cases installs m m2 tid e hb hs with h1 | ⟨a, h1⟩
    · rw [h1]
      exact ⟨rfl, rfl, rfl, by intro _ h; cases h⟩
    · rw [h1]
      refine ⟨rfl, rfl, ?_, by intro _ h; cases h⟩
      show lastExited (m.owner ++ [Call.handler a e]) = lastExited m.owner
      rw [lastExited_append_one]

/-- After a sequence of operations the current state is null exactly when it
was null before and the sequence has no `add`. -/
theorem run_currState_none_iff (installs : State Key → List (Ty × Handler))
    (ops : List (Op Key Ty Handler Ev))
    (m m2 : StateMachine Key Ty Handler (List (Call Key Handler Ev)))
    (h : WellFormed m) (hr : run (recording installs) ops m = some m2) :
    m2.m_currState = none ↔ (m.m_currState = none ∧ ∀ s, Op.add s ∉ ops) := by
  induction ops generalizing m with
  | nil =>
    simp only [run, Option.some.injEq] at hr
    subst hr
    simp
  | cons op rest ih =>
    simp only [run] at hr
    cases hs : step (recording installs) op m with
    | none => simp [hs] at hr
    | some m1 =>
      rw [hs] at hr
      simp only [Option.some_bind] at hr
      rw [ih m1 (wellFormed_step installs op m m1 h hs) hr]
      rcases step_recording_cases installs op m m1 h.bus hs with
        ⟨h1, _, _, h4⟩ | ⟨s, h1, h2, h3, _, _⟩ | ⟨k, cur, dest, h1, h2, _, _, _, h3⟩
      · rw [h1]
        constructor
        · rintro ⟨hn, hrest⟩
          refine ⟨hn, ?_⟩
          intro s hmem
          rcases List.mem_cons.mp hmem with heq | hmem
          · exact h4 s heq.symm hn
          · exact hrest s hmem
        · rintro ⟨hn, hall⟩
          exact ⟨hn, fun s hmem => hall s (List.mem_cons_of_mem _ hmem)⟩
      · rw [h3]
        constructor
        · rintro ⟨hn, _⟩; cases hn
        · rintro ⟨_, hall⟩
          exact absurd (h1 ▸ List.mem_cons_self _ _) (hall s)
      · rw [h3, h2]
        constructor
        · rintro ⟨hn, _⟩; cases hn
        · rintro ⟨hn, _⟩; cases hn

/-- Publishing an event on an enabled machine that has the bus invariant, when a
handler is stored for the event type and the key of the current state, calls
that handler once. -/
theorem publish_recording_eq (installs : State Key → List (Ty × Handler))
    (m : StateMachine Key Ty Handler (List (Call Key Handler Ev))) (cur : State Key)
    (E : Ty) (e : Ev) (a : Handler) (hb : BusInv m) (hen : m.m_enabled = true)
    (hcur : m.m_currState = some cur) (ha : handlerAt m E cur.KEY = some a) :
    publish (recording installs) E e m =
      some { m with owner := m.owner ++ [Call.handler a e] } := by
  unfold handlerAt at ha
  cases hf : UMap.find m.m_subscriptions E with
  | none => simp [hf] at ha
  | some subs =>
    rw [hf] at ha
    simp only [Option.some_bind] at ha
    have hc := hb E
    rw [hf] at hc
    simp only [Option.isSome_some, if_true] at hc
    unfold publish
    rw [hc]
    simp [repeatM, listener, hen, hf, hcur, ha, recording]

/-- After a run of `subscribe<EventType>` calls of a state, the handler stored
for an event type and the key of the state is the one of the last call for that
event type. -/
theorem handlerAt_subscribe_foldl_last (E : Ty) (s : State Key) (a : Handler)
    (l1 l2 : List (Ty × Handler)) (m : StateMachine Key Ty Handler (List (Call Key Handler Ev)))
    (hl : ∀ p ∈ l2, p.1 ≠ E) :
    handlerAt ((l1 ++ (E, a) :: l2).foldl (fun acc p => subscribe p.1 s p.2 acc) m) E s.KEY =
      some a := by
  rw [List.foldl_append, List.foldl_cons, handlerAt_subscribe_foldl_other E s s.KEY l2 _ hl,
    handlerAt_subscribe]
  simp

/-- The handler table after `add` is the one the `subscribe<EventType>` calls
of the state leave. -/
theorem add_recording_handlerAt (installs : State Key → List (Ty × Handler))
    (s : State Key) (m : StateMachine Key Ty Handler (List (Call Key Handler Ev)))
    (E : Ty) (k : Key) :
    ∃ m1 : StateMachine Key Ty Handler (List (Call Key Handler Ev)),
      m1.m_subscriptions = m.m_subscriptions ∧
      handlerAt (add (recording installs) s m) E k =
        handlerAt ((installs s).foldl (fun acc p => subscribe p.1 s p.2 acc) m1) E k := by
  unfold add
  cases hc : m.m_currState with
  | none =>
    exact ⟨{ m with m_currState := some s, owner := m.owner ++ [Call.subscribe s] }, rfl, rfl⟩
  | some c =>
    exact ⟨{ m with owner := m.owner ++ [Call.subscribe s] }, rfl, rfl⟩

end invariant

/-! ## The claims -/

open StateMachine

variable {Key Ty Handler Ev Owner : Type} [DecidableEq Key]

/-- C1: on a machine whose current state is `cur`, for a key that is registered
(to `dest`), not prohibited and not the key of `cur`, `setNext` makes `cur` the
previous state and `dest` the current state, and the calls into user code are
exactly `cur.onExit()` followed by `dest.onEnter()`; the prohibition set is
emptied and every other member is as before. -/
theorem c1_setNext_commits [DecidableEq Ty] (installs : State Key → List (Ty × Handler))
    (m : StateMachine Key Ty Handler (List (Call Key Handler Ev))) (cur dest : State Key)
    (k : Key) (hcur : m.m_currState = some cur)
    (hreg : UMap.find m.m_states k = some dest)
    (hallowed : k ∉ m.m_prohibited) (hne : k ≠ cur.KEY) :
    setNext (recording installs) k m =
      some { m with
        m_prevState := some cur
        m_currState := some dest
        m_prohibited := ∅
        owner := m.owner ++ [Call.onExit cur, Call.onEnter dest] } :=
  setNext_recording_eq installs m cur dest k hcur hreg hallowed hne

/-- The scenario of C1: on the machine Idle, Running, Stopped (Idle added
first), `setNext(Running)` gives current Running, previous Idle, and the calls
`Idle.onExit()`, `Running.onEnter()`. -/
theorem c1_setNext_commits_witness :
    setNext demoCode Phase.Running demo =
      some { demo with
        m_prevState := some sIdle
        m_currState := some sRunning
        m_prohibited := ∅
        owner := demo.owner ++ [Call.onExit sIdle, Call.onEnter sRunning] } :=
  c1_setNext_commits demoInstalls demo sIdle sRunning Phase.Running
    (by decide) (by decide) (by decide) (by decide)

/-- C2: on a machine that has a current state, `setNext(k)` for a key that is
prohibited, or is the key of the current state, or has no registered state,
returns the machine unchanged in every member (current, previous, prohibition
set, state map, handler table, enabled flag, owner), and it does so for every
user code, so that no hook runs. -/
theorem c2_setNext_noop (U : UserCode Key Ty Handler Ev Owner)
    (m : StateMachine Key Ty Handler Owner) (cur : State Key) (k : Key)
    (hcur : m.m_currState = some cur)
    (h : k ∈ m.m_prohibited ∨ k = cur.KEY ∨ UMap.find m.m_states k = none) :
    setNext U k m = some m :=
  setNext_eq_self U m cur k hcur h

/-- C2 on the example: with Stopped prohibited, `setNext(Stopped)` changes
nothing and the log of calls is as before. -/
theorem c2_setNext_noop_witness :
    setNext demoCode Phase.Stopped (prohibitState Phase.Stopped demo) =
      some (prohibitState Phase.Stopped demo) :=
  c2_setNext_noop demoCode (prohibitState Phase.Stopped demo) sIdle Phase.Stopped
    (by decide) (Or.inl (by decide))

/-- C3, as the code has it: on the example machine with Stopped prohibited and
hooks whose `onEnter()` calls `machine->prohibitState(Stopped)`, `setNext(Running)`
commits (Running current, Idle previous) and returns with Stopped prohibited: the
prohibition set is not empty, and the following `setNext(Stopped)`, to a
registered key that is not the current one, changes nothing. -/
theorem c3_commit_clears_prohibitions_counterexample :
    Phase.Stopped ∈ (prohibitState Phase.Stopped demo).m_prohibited ∧
    setNext (prohibiting (fun _ => Phase.Idle) (fun _ => Phase.Stopped) :
        UserCode Phase Nat Nat Nat (List (Call Phase Nat Nat))) Phase.Running
        (prohibitState Phase.Stopped demo) =
      some { demo with
        m_prevState := some sIdle
        m_currState := some sRunning
        m_prohibited := {Phase.Stopped} } ∧
    ({Phase.Stopped} : Finset Phase) ≠ ∅ ∧
    UMap.find demo.m_states Phase.Stopped = some sStopped ∧
    Phase.Stopped ≠ sRunning.KEY ∧
    setNext (prohibiting (fun _ => Phase.Idle) (fun _ => Phase.Stopped) :
        UserCode Phase Nat Nat Nat (List (Call Phase Nat Nat))) Phase.Stopped
        { demo with
          m_prevState := some sIdle
          m_currState := some sRunning
          m_prohibited := {Phase.Stopped} } =
      some { demo with
        m_prevState := some sIdle
        m_currState := some sRunning
        m_prohibited := {Phase.Stopped} } := by
  decide

/-- C3, amended: a `setNext(k)` that commits (current state `cur`, `k` registered
to `dest`, not prohibited, not the key of `cur`) empties the prohibition set
after `onExit` of `cur` and before `onEnter` of `dest`, for every user code:
`onEnter` is called on a machine with `dest` current and no key prohibited, and
what `setNext` returns is what `onEnter` returns.  So when `onEnter` of `dest`
leaves the prohibition set alone, the set is empty afterwards and every key that
was prohibited is allowed; and under the recording user code, whose hooks do not
call back into the machine, a following `setNext(p)` to a key `p` that was
prohibited, is registered (to `sp`) and is not the key of the new current state
commits: `dest` becomes previous, `sp` current, and `dest.onExit()`,
`sp.onEnter()` are called. -/
theorem c3_commit_clears_before_onEnter [DecidableEq Ty]
    (U : UserCode Key Ty Handler Ev (List (Call Key Handler Ev)))
    (installs : State Key → List (Ty × Handler))
    (m : StateMachine Key Ty Handler (List (Call Key Handler Ev))) (cur dest : State Key)
    (k : Key) (hcur : m.m_currState = some cur)
    (hreg : UMap.find m.m_states k = some dest)
    (hallowed : k ∉ m.m_prohibited) (hne : k ≠ cur.KEY) :
    (∃ m4, m4.m_prohibited = ∅ ∧ m4.m_currState = some dest ∧
      setNext U k m = some (U.onEnter dest m4)) ∧
    ((∀ x, (U.onEnter dest x).m_prohibited = x.m_prohibited) →
      ∃ m1, setNext U k m = some m1 ∧ m1.m_prohibited = ∅ ∧
        ∀ p ∈ m.m_prohibited, p ∉ m1.m_prohibited) ∧
    (∃ m1, setNext (recording installs) k m = some m1 ∧ m1.m_prohibited = ∅ ∧
      ∀ p ∈ m.m_prohibited, p ∉ m1.m_prohibited ∧
        ∀ sp, UMap.find m.m_states p = some sp → p ≠ dest.KEY →
          setNext (recording installs) p m1 =
            some { m1 with
              m_prevState := some dest
              m_currState := some sp
              owner := m1.owner ++ [Call.onExit dest, Call.onEnter sp] }) := by
  have hk : ¬ cur.KEY = k := fun h => hne h.symm
  have hU : setNext U k m =
      some (U.onEnter dest
        { U.onExit cur m with
          m_prohibited := ∅
          m_prevState := (U.onExit cur m).m_currState
          m_currState := some dest }) := by
    simp [setNext, allowAllStates, hallowed, hcur, hk, hreg]
  refine ⟨⟨_, rfl, rfl, hU⟩, ?_, ?_⟩
  · intro hframe
    refine ⟨_, hU, ?_, ?_⟩
    · rw [hframe]
    · intro p _
      rw [hframe]
      simp
  · refine ⟨_, setNext_recording_eq installs m cur dest k hcur hreg hallowed hne, rfl, ?_⟩
    intro p _
    refine ⟨by simp, ?_⟩
    intro sp hsp hp
    exact setNext_recording_eq installs
      { m with
        m_prevState := some cur
        m_currState := some dest
        m_prohibited := ∅
        owner := m.owner ++ [Call.onExit cur, Call.onEnter dest] }
      dest sp p rfl hsp (by simp) hp

/-- The amended C3 on the example with Stopped prohibited: under hooks whose
`onEnter()` prohibits Stopped, `onEnter` of Running still starts with no key
prohibited; under the recording user code `setNext(Running)` commits, leaves no
key prohibited, and the following `setNext(Stopped)` commits too. -/
theorem c3_commit_clears_before_onEnter_witness :
    (∃ m4 : DemoMachine, m4.m_prohibited = ∅ ∧ m4.m_currState = some sRunning ∧
      setNext (prohibiting (fun _ => Phase.Idle) (fun _ => Phase.Stopped) :
          UserCode Phase Nat Nat Nat (List (Call Phase Nat Nat))) Phase.Running
          (prohibitState Phase.Stopped demo) =
        some ((prohibiting (fun _ => Phase.Idle) (fun _ => Phase.Stopped) :
          UserCode Phase Nat Nat Nat (List (Call Phase Nat Nat))).onEnter sRunning m4)) ∧
    ((∀ x, ((prohibiting (fun _ => Phase.Idle) (fun _ => Phase.Stopped) :
          UserCode Phase Nat Nat Nat (List (Call Phase Nat Nat))).onEnter sRunning
            x).m_prohibited = x.m_prohibited) →
      ∃ m1, setNext (prohibiting (fun _ => Phase.Idle) (fun _ => Phase.Stopped) :
          UserCode Phase Nat Nat Nat (List (Call Phase Nat Nat))) Phase.Running
          (prohibitState Phase.Stopped demo) = some m1 ∧ m1.m_prohibited = ∅ ∧
        ∀ p ∈ (prohibitState Phase.Stopped demo).m_prohibited, p ∉ m1.m_prohibited) ∧
    (∃ m1, setNext demoCode Phase.Running (prohibitState Phase.Stopped demo) = some m1 ∧
      m1.m_prohibited = ∅ ∧
      ∀ p ∈ (prohibitState Phase.Stopped demo).m_prohibited, p ∉ m1.m_prohibited ∧
        ∀ sp, UMap.find (prohibitState Phase.Stopped demo).m_states p = some sp →
          p ≠ sRunning.KEY →
          setNext demoCode p m1 =
            some { m1 with
              m_prevState := some sRunning
              m_currState := some sp
              owner := m1.owner ++ [Call.onExit sRunning, Call.onEnter sp] }) :=
  c3_commit_clears_before_onEnter
    (prohibiting (fun _ => Phase.Idle) (fun _ => Phase.Stopped)) demoInstalls
    (prohibitState Phase.Stopped demo) sIdle sRunning
    Phase.Running (by decide) (by decide) (by decide) (by decide)

/-- C4, as the code has it: on the example machine, which holds the first
Running state under the key Running, `add` of a second state with the key
Running does not make the map hold the second state: the key still maps to the
first one. -/
theorem c4_add_duplicate_counterexample :
    UMap.find demo.m_states Phase.Running = some sRunning ∧
    sRunning2.KEY = Phase.Running ∧
    UMap.find (add demoCode sRunning2 demo).m_states Phase.Running = some sRunning ∧
    UMap.find (add demoCode sRunning2 demo).m_states Phase.Running ≠ some sRunning2 := by
  decide

/-- C4, amended: when the machine holds `s1` under the key `k`, `add` of a state
`s2` with the key `k` leaves the key-to-state map as it was (`emplace` does not
replace): `k` still maps to `s1`, and a map that had exactly one entry for `k`
still has exactly one. -/
theorem c4_add_duplicate_keeps_first [DecidableEq Ty] (installs : State Key → List (Ty × Handler))
    (m : StateMachine Key Ty Handler (List (Call Key Handler Ev))) (s1 s2 : State Key) (k : Key)
    (hk : s2.KEY = k) (h1 : UMap.find m.m_states k = some s1)
    (hone : UMap.entries m.m_states k = 1) :
    (add (recording installs) s2 m).m_states = m.m_states ∧
    UMap.find (add (recording installs) s2 m).m_states k = some s1 ∧
    UMap.entries (add (recording installs) s2 m).m_states k = 1 := by
  have hs : (add (recording installs) s2 m).m_states = m.m_states := by
    rw [add_recording_states, hk]
    exact UMap.emplace_of_find_some m.m_states k s2 s1 h1
  rw [hs]
  exact ⟨rfl, h1, hone⟩

/-- The amended C4 on the example machine and a second Running state. -/
theorem c4_add_duplicate_keeps_first_witness :
    (add demoCode sRunning2 demo).m_states = demo.m_states ∧
    UMap.find (add demoCode sRunning2 demo).m_states Phase.Running = some sRunning ∧
    UMap.entries (add demoCode sRunning2 demo).m_states Phase.Running = 1 :=
  c4_add_duplicate_keeps_first demoInstalls demo sRunning sRunning2 Phase.Running
    (by decide) (by decide) (by decide)

/-- C5: after any non-empty sequence of `add` calls on a freshly constructed
machine, the current state is the first state added and the previous state is
null; the sequence may stop after the first call or after any later one. -/
theorem c5_first_added_is_current [DecidableEq Ty] (installs : State Key → List (Ty × Handler))
    (theOwner : List (Call Key Handler Ev)) (first : State Key) (later : List (State Key)) :
    (addAll (recording installs) (first :: later) (new theOwner)).m_currState = some first ∧
    (addAll (recording installs) (first :: later) (new theOwner)).m_prevState = none := by
  have h1 : (add (recording installs) first
      (new theOwner : StateMachine Key Ty Handler _)).m_currState = some first := by
    rw [add_recording_currState]; rfl
  obtain ⟨i1, i2⟩ := addAll_recording_pointers installs later _ first h1
  refine ⟨i1, ?_⟩
  have h2 := add_recording_prevState installs first
    (new theOwner : StateMachine Key Ty Handler _)
  exact i2.trans h2

/-- C6: on a machine whose current state is `cur` and whose handler table has the
table `subs` for the event type `E`, the listener run on a published event `e`
does nothing when the machine is disabled, does nothing when `subs` has no
handler under the key of `cur`, and otherwise calls the handler stored under the
key of `cur`, once, with `e`, and calls nothing else.  So a disabled machine
calls no handler, and after `setEnabled(true)` the handler of the current state
is called. -/
theorem c6_dispatch_gated [DecidableEq Ty] (installs : State Key → List (Ty × Handler))
    (m : StateMachine Key Ty Handler (List (Call Key Handler Ev))) (cur : State Key)
    (E : Ty) (subs : UMap Key Handler) (e : Ev)
    (hcur : m.m_currState = some cur)
    (hsub : UMap.find m.m_subscriptions E = some subs) :
    (m.m_enabled = false → listener (recording installs) E e m = some m) ∧
    (UMap.find subs cur.KEY = none → listener (recording installs) E e m = some m) ∧
    (∀ h, m.m_enabled = true → UMap.find subs cur.KEY = some h →
      listener (recording installs) E e m =
        some { m with owner := m.owner ++ [Call.handler h e] }) ∧
    listener (recording installs) E e (setEnabled false m) = some (setEnabled false m) ∧
    (∀ h, UMap.find subs cur.KEY = some h →
      listener (recording installs) E e (setEnabled true (setEnabled false m)) =
        some { setEnabled true m with owner := m.owner ++ [Call.handler h e] }) := by
  refine ⟨?_, ?_, ?_, ?_, ?_⟩
  · intro hd
    simp [listener, hd]
  · intro hn
    cases hen : m.m_enabled <;> simp [listener, hen, hsub, hcur, hn]
  · intro h hen hh
    simp [listener, hen, hsub, hcur, hh, recording]
  · simp [listener, setEnabled]
  · intro h hh
    simp [listener, setEnabled, hsub, hcur, hh, recording]

/-- The scenario of C6: handler 11 is registered for event type 7 under Running
and handler 12 under Stopped; with Running current, a published event of type 7
calls handler 11 only. -/
theorem c6_dispatch_gated_witness :
    (demoRunning.m_enabled = false → listener demoCode 7 5 demoRunning = some demoRunning) ∧
    (UMap.find [(Phase.Running, 11), (Phase.Stopped, 12)] sRunning.KEY = none →
      listener demoCode 7 5 demoRunning = some demoRunning) ∧
    (∀ h, demoRunning.m_enabled = true →
      UMap.find [(Phase.Running, 11), (Phase.Stopped, 12)] sRunning.KEY = some h →
      listener demoCode 7 5 demoRunning =
        some { demoRunning with owner := demoRunning.owner ++ [Call.handler h 5] }) ∧
    listener demoCode 7 5 (setEnabled false demoRunning) = some (setEnabled false demoRunning) ∧
    (∀ h, UMap.find [(Phase.Running, 11), (Phase.Stopped, 12)] sRunning.KEY = some h →
      listener demoCode 7 5 (setEnabled true (setEnabled false demoRunning)) =
        some { setEnabled true demoRunning with
          owner := demoRunning.owner ++ [Call.handler h 5] }) :=
  c6_dispatch_gated demoInstalls demoRunning sRunning 7 [(Phase.Running, 11), (Phase.Stopped, 12)]
    5 (by decide) (by decide)

/-- C7: on a machine whose current state is `cur`, after `allowOnly(W)` a call
`setNext(c)` with `c` outside `W` returns the machine unchanged, whatever the
user code; a call `setNext(a)` with `a` in `W`, registered (to `dest`) and not
the key of `cur`, commits the transition to `dest`; and `allowOnly(k)` gives the
same machine as `allowOnly` of the one-key set. -/
theorem c7_allowOnly_whitelist [DecidableEq Ty] (installs : State Key → List (Ty × Handler))
    (m : StateMachine Key Ty Handler (List (Call Key Handler Ev))) (cur : State Key)
    (W : Finset Key) (hcur : m.m_currState = some cur) :
    (∀ (U : UserCode Key Ty Handler Ev (List (Call Key Handler Ev))) (c : Key), c ∉ W →
      setNext U c (allowOnlySet W m) = some (allowOnlySet W m)) ∧
    (∀ (a : Key) (dest : State Key), a ∈ W → UMap.find m.m_states a = some dest →
      a ≠ cur.KEY →
      setNext (recording installs) a (allowOnlySet W m) =
        some { allowOnlySet W m with
          m_prevState := some cur
          m_currState := some dest
          m_prohibited := ∅
          owner := m.owner ++ [Call.onExit cur, Call.onEnter dest] }) ∧
    (∀ k : Key, allowOnly k m = allowOnlySet {k} m) := by
  have hc2 : (allowOnlySet W m).m_currState = some cur := by
    rw [allowOnlySet_eq]; exact hcur
  have hst : (allowOnlySet W m).m_states = m.m_states := by
    rw [allowOnlySet_eq]
  have hpr : (allowOnlySet W m).m_prohibited =
      (m.m_prohibited ∪ (UMap.keys m.m_states).toFinset) \ W := by
    rw [allowOnlySet_eq]
  refine ⟨?_, ?_, ?_⟩
  · intro U c hcW
    apply setNext_eq_self U _ cur c hc2
    by_cases hreg : c ∈ UMap.keys m.m_states
    · left
      rw [hpr]
      simp [hcW, hreg]
    · right; right
      rw [hst]
      exact UMap.find_none_of_not_mem_keys _ _ hreg
  · intro a dest haW hreg hne
    have hal : a ∉ (allowOnlySet W m).m_prohibited := by
      rw [hpr]; simp [haW]
    have := setNext_recording_eq installs (allowOnlySet W m) cur dest a hc2
      (by rw [hst]; exact hreg) hal hne
    rw [this, allowOnlySet_eq]
  · intro k
    rw [allowOnlySet_eq, allowOnly, prohibitAllStates_eq]
    simp only [allowState, Finset.sdiff_singleton_eq_erase]

/-- C7 on the example: after `allowOnly({Running})` on the machine with Idle
current, `setNext(Stopped)` changes nothing and `setNext(Running)` commits. -/
theorem c7_allowOnly_whitelist_witness :
    (∀ (U : UserCode Phase Nat Nat Nat (List (Call Phase Nat Nat))) (c : Phase),
      c ∉ ({Phase.Running} : Finset Phase) →
      setNext U c (allowOnlySet {Phase.Running} demo) =
        some (allowOnlySet {Phase.Running} demo)) ∧
    (∀ (a : Phase) (dest : State Phase), a ∈ ({Phase.Running} : Finset Phase) →
      UMap.find demo.m_states a = some dest → a ≠ sIdle.KEY →
      setNext demoCode a (allowOnlySet {Phase.Running} demo) =
        some { allowOnlySet {Phase.Running} demo with
          m_prevState := some sIdle
          m_currState := some dest
          m_prohibited := ∅
          owner := demo.owner ++ [Call.onExit sIdle, Call.onEnter dest] }) ∧
    (∀ k : Phase, allowOnly k demo = allowOnlySet {k} demo) :=
  c7_allowOnly_whitelist demoInstalls demo sIdle {Phase.Running} (by decide)

/-- C8, at the failing input: on a freshly constructed machine, to which no
state has been added, `setNext(k)` finds `k` not prohibited and reads
`m_currState->KEY` through the null `m_currState`; the call faults for every key
and every user code, it neither commits nor returns the machine unchanged. -/
theorem c8_setNext_faults_before_first_add (U : UserCode Key Ty Handler Ev Owner)
    (theOwner : Owner) (k : Key) :
    (new theOwner : StateMachine Key Ty Handler Owner).m_currState = none ∧
    k ∉ (new theOwner : StateMachine Key Ty Handler Owner).m_prohibited ∧
    setNext U k (new theOwner) = none := by
  simp [setNext, new]

/-- C9: `setEnabled(b)` sets the flag and leaves the current state, the previous
state, the prohibition set, the state map, the handler table, the registered
listeners and the log of calls as they were; and `setNext(k)` on the machine
with the flag set to `b` gives what `setNext(k)` gives on the machine itself,
up to the flag: the same current and previous state, prohibition set and calls
into user code (and the same fault, if any). -/
theorem c9_enabled_flag_frame [DecidableEq Ty] (installs : State Key → List (Ty × Handler))
    (m : StateMachine Key Ty Handler (List (Call Key Handler Ev))) (b : Bool) (k : Key) :
    (setEnabled b m).m_enabled = b ∧
    (setEnabled b m).m_currState = m.m_currState ∧
    (setEnabled b m).m_prevState = m.m_prevState ∧
    (setEnabled b m).m_prohibited = m.m_prohibited ∧
    (setEnabled b m).m_states = m.m_states ∧
    (setEnabled b m).m_subscriptions = m.m_subscriptions ∧
    (setEnabled b m).listeners = m.listeners ∧
    (setEnabled b m).owner = m.owner ∧
    setNext (recording installs) k (setEnabled b m) =
      (setNext (recording installs) k m).map (setEnabled b) := by
  refine ⟨rfl, rfl, rfl, rfl, rfl, rfl, rfl, rfl, ?_⟩
  unfold setNext
  by_cases hp : k ∈ m.m_prohibited
  · simp [setEnabled, hp]
  · cases hc : m.m_currState with
    | none => simp [setEnabled, hp, hc]
    | some cur =>
      by_cases hk : cur.KEY = k
      · simp [setEnabled, hp, hc, hk]
      · cases hf : UMap.find m.m_states k with
        | none => simp [setEnabled, hp, hc, hk, hf]
        | some dest => simp [setEnabled, hp, hc, hk, hf, recording, allowAllStates]

/-- C10: `prohibitState(k)` makes the prohibition set the old set with `k`
added, `prohibitStates(K)` makes it exactly `K`; so after `prohibitStates(K)` a
key that was prohibited and is not in `K` is not prohibited any more.  Both
change no other member. -/
theorem c10_prohibit_adds_plural_replaces (m : StateMachine Key Ty Handler Owner)
    (k : Key) (K : Finset Key) :
    prohibitState k m = { m with m_prohibited := m.m_prohibited ∪ {k} } ∧
    prohibitStates K m = { m with m_prohibited := K } ∧
    ∀ x, x ∈ m.m_prohibited → x ∉ K → x ∉ (prohibitStates K m).m_prohibited := by
  refine ⟨?_, rfl, fun x _ hx => hx⟩
  have h : insert k m.m_prohibited = m.m_prohibited ∪ {k} := by
    ext x
    simp only [Finset.mem_insert, Finset.mem_union, Finset.mem_singleton]
    tauto
  simp only [prohibitState, h]

/-- C11: after `prohibitAllStates()` every registered key is in the prohibition
set (so is the key of the current state when it is registered), and on a machine
that has a current state every `setNext(k)` that follows returns the machine
unchanged, whatever the key and the user code, and keeps doing so for any run
of `setNext` calls, no key having been allowed in between. -/
theorem c11_prohibitAllStates_blocks_setNext [DecidableEq Ty]
    (U : UserCode Key Ty Handler Ev Owner)
    (m : StateMachine Key Ty Handler Owner) (cur : State Key)
    (hcur : m.m_currState = some cur) :
    (∀ k s, UMap.find m.m_states k = some s → k ∈ (prohibitAllStates m).m_prohibited) ∧
    (∀ k, setNext U k (prohibitAllStates m) = some (prohibitAllStates m)) ∧
    (∀ ks : List Key,
      run U (ks.map Op.setNext) (prohibitAllStates m) = some (prohibitAllStates m)) := by
  have hreg : ∀ k s, UMap.find m.m_states k = some s →
      k ∈ (prohibitAllStates m).m_prohibited := by
    intro k s hks
    rw [prohibitAllStates_eq]
    simp [UMap.mem_keys_of_find_some m.m_states k s hks]
  have hnoop : ∀ k, setNext U k (prohibitAllStates m) = some (prohibitAllStates m) := by
    intro k
    have hc2 : (prohibitAllStates m).m_currState = some cur := by
      rw [prohibitAllStates_eq]; exact hcur
    apply setNext_eq_self U _ cur k hc2
    cases hf : UMap.find m.m_states k with
    | none =>
      right; right
      rw [prohibitAllStates_eq]; exact hf
    | some s => exact Or.inl (hreg k s hf)
  refine ⟨hreg, hnoop, ?_⟩
  intro ks
  induction ks with
  | nil => rfl
  | cons k rest ih =>
    simp only [List.map_cons, run, step, hnoop k, Option.some_bind]
    exact ih

/-- C11 on the example: after `prohibitAllStates()` on the machine with Idle
current, no `setNext` changes anything. -/
theorem c11_prohibitAllStates_blocks_setNext_witness :
    (∀ k s, UMap.find demo.m_states k = some s → k ∈ (prohibitAllStates demo).m_prohibited) ∧
    (∀ k, setNext demoCode k (prohibitAllStates demo) = some (prohibitAllStates demo)) ∧
    (∀ ks : List Phase,
      run demoCode (ks.map Op.setNext) (prohibitAllStates demo) =
        some (prohibitAllStates demo)) :=
  c11_prohibitAllStates_blocks_setNext demoCode demo sIdle (by decide)

/-- C12: each of the seven restriction controls returns the machine with a new
prohibition set and every other member as it was: the current and the previous
state, the state map, the handler table, the enabled flag, the registered
listeners and the owner.  None of them takes the user code, so none calls a hook
or a handler. -/
theorem c12_restriction_controls_frame (m : StateMachine Key Ty Handler Owner)
    (k : Key) (K : Finset Key) :
    prohibitState k m = { m with m_prohibited := insert k m.m_prohibited } ∧
    prohibitStates K m = { m with m_prohibited := K } ∧
    prohibitAllStates m =
      { m with m_prohibited := m.m_prohibited ∪ (UMap.keys m.m_states).toFinset } ∧
    allowState k m = { m with m_prohibited := m.m_prohibited.erase k } ∧
    allowOnly k m =
      { m with m_prohibited :=
          (m.m_prohibited ∪ (UMap.keys m.m_states).toFinset).erase k } ∧
    allowOnlySet K m =
      { m with m_prohibited := (m.m_prohibited ∪ (UMap.keys m.m_states).toFinset) \ K } ∧
    allowAllStates m = { m with m_prohibited := ∅ } := by
  refine ⟨rfl, rfl, prohibitAllStates_eq m, rfl, ?_, allowOnlySet_eq K m, rfl⟩
  rw [allowOnly, prohibitAllStates_eq]
  rfl

/-- C13: on a machine built by operations, enabled and with `s` current, after
`subscribe<E>(s, h1)` and then `subscribe<E>(s, h2)` the pair of `E` and the key
of `s` has the one handler `h2`, publishing an event of the type `E` calls `h2`
once and nothing else (so `h1` is not called), and the handler stored for every
other pair of an event type and a key is the one stored before. -/
theorem c13_resubscribe_replaces [DecidableEq Ty] (installs : State Key → List (Ty × Handler))
    (ops : List (Op Key Ty Handler Ev))
    (m : StateMachine Key Ty Handler (List (Call Key Handler Ev)))
    (s : State Key) (E : Ty) (h1 h2 : Handler) (e : Ev)
    (hr : run (recording installs) ops (new []) = some m)
    (hcur : m.m_currState = some s) (hen : m.m_enabled = true) :
    handlerAt (subscribe E s h2 (subscribe E s h1 m)) E s.KEY = some h2 ∧
    publish (recording installs) E e (subscribe E s h2 (subscribe E s h1 m)) =
      some { subscribe E s h2 (subscribe E s h1 m) with
        owner := m.owner ++ [Call.handler h2 e] } ∧
    ∀ (E2 : Ty) (k2 : Key), ¬ (E2 = E ∧ k2 = s.KEY) →
      handlerAt (subscribe E s h2 (subscribe E s h1 m)) E2 k2 = handlerAt m E2 k2 := by
  have hwf := wellFormed_of_run installs ops m hr
  have hb : BusInv (subscribe E s h2 (subscribe E s h1 m)) :=
    subscribe_busInv E s h2 _ (subscribe_busInv E s h1 m hwf.bus)
  obtain ⟨_, a2, _, _, a5, a6⟩ := subscribe_frame E s h1 m
  obtain ⟨_, b2, _, _, b5, b6⟩ := subscribe_frame E s h2 (subscribe E s h1 m)
  have hh : handlerAt (subscribe E s h2 (subscribe E s h1 m)) E s.KEY = some h2 := by
    rw [handlerAt_subscribe]; simp
  refine ⟨hh, ?_, ?_⟩
  · rw [publish_recording_eq installs _ s E e h2 hb (by rw [b5, a5, hen])
      (by rw [b2, a2, hcur]) hh, b6, a6]
  · intro E2 k2 hne
    rw [handlerAt_subscribe, handlerAt_subscribe]
    have h3 : ¬ (E = E2 ∧ s.KEY = k2) := fun h => hne ⟨h.1.symm, h.2.symm⟩
    simp [h3]

/-- C13 on the example machine with Running current: after two subscriptions of
the Running state for event type 7, handlers 21 and then 22, a published event
of type 7 calls handler 22. -/
theorem c13_resubscribe_replaces_witness :
    handlerAt (subscribe 7 sRunning 22 (subscribe 7 sRunning 21 demoRunning)) 7 sRunning.KEY =
      some 22 ∧
    publish demoCode 7 5 (subscribe 7 sRunning 22 (subscribe 7 sRunning 21 demoRunning)) =
      some { subscribe 7 sRunning 22 (subscribe 7 sRunning 21 demoRunning) with
        owner := demoRunning.owner ++ [Call.handler 22 5] } ∧
    ∀ (E2 : Nat) (k2 : Phase), ¬ (E2 = 7 ∧ k2 = sRunning.KEY) →
      handlerAt (subscribe 7 sRunning 22 (subscribe 7 sRunning 21 demoRunning)) E2 k2 =
        handlerAt demoRunning E2 k2 :=
  c13_resubscribe_replaces demoInstalls demoOps demoRunning sRunning 7 21 22 5
    (by decide) (by decide) (by decide)

/-- C14: on a machine built by operations, the number of listeners registered
for an event type `E` is 1 when `m_subscriptions` has a table for `E` and 0
when it has none; it is 0 on a fresh machine; it is 1 after every
`subscribe<E>` call; and a `subscribe<E>` call on a machine that has a table
for `E` only assigns the entry of the key in that table, the listeners staying
as they were. -/
theorem c14_one_listener_per_event_type [DecidableEq Ty]
    (installs : State Key → List (Ty × Handler))
    (ops : List (Op Key Ty Handler Ev))
    (m : StateMachine Key Ty Handler (List (Call Key Handler Ev)))
    (hr : run (recording installs) ops (new []) = some m) :
    (∀ E : Ty, m.listeners.count E =
      if (UMap.find m.m_subscriptions E).isSome then 1 else 0) ∧
    (∀ E : Ty, (new [] : StateMachine Key Ty Handler (List (Call Key Handler Ev))).listeners.count
      E = 0) ∧
    (∀ (E : Ty) (s : State Key) (a : Handler), (subscribe E s a m).listeners.count E = 1) ∧
    (∀ (E : Ty) (s : State Key) (a : Handler) (subs : UMap Key Handler),
      UMap.find m.m_subscriptions E = some subs →
      subscribe E s a m =
        { m with m_subscriptions :=
            UMap.assign m.m_subscriptions E (UMap.assign subs s.KEY a) }) := by
  have hwf := wellFormed_of_run installs ops m hr
  refine ⟨hwf.bus, ?_, ?_, ?_⟩
  · intro E; rfl
  · intro E s a
    have h1 := subscribe_busInv E s a m hwf.bus E
    rw [subscribe_find] at h1
    simpa using h1
  · intro E s a subs hf
    simp [subscribe, hf]

/-- C14 on the example machine, whose states have subscribed for event type 7
twice. -/
theorem c14_one_listener_per_event_type_witness :
    (∀ E : Nat, demoRunning.listeners.count E =
      if (UMap.find demoRunning.m_subscriptions E).isSome then 1 else 0) ∧
    (∀ E : Nat, (new [] : DemoMachine).listeners.count E = 0) ∧
    (∀ (E : Nat) (s : State Phase) (a : Nat),
      (subscribe E s a demoRunning).listeners.count E = 1) ∧
    (∀ (E : Nat) (s : State Phase) (a : Nat) (subs : UMap Phase Nat),
      UMap.find demoRunning.m_subscriptions E = some subs →
      subscribe E s a demoRunning =
        { demoRunning with
          m_subscriptions :=
            UMap.assign demoRunning.m_subscriptions E (UMap.assign subs s.KEY a) }) :=
  c14_one_listener_per_event_type demoInstalls demoOps demoRunning (by decide)

/-- C15: on a machine built by operations from a fresh one, the current state
is null exactly when the key-to-state map is empty, and exactly when the
operations had no `add` among them; and an operation on a machine whose current
state is not null gives a machine whose current state is not null. -/
theorem c15_current_null_iff_no_add [DecidableEq Ty]
    (installs : State Key → List (Ty × Handler))
    (ops : List (Op Key Ty Handler Ev))
    (m : StateMachine Key Ty Handler (List (Call Key Handler Ev)))
    (hr : run (recording installs) ops (new []) = some m) :
    (getCurrentState m = none ↔ m.m_states = []) ∧
    (getCurrentState m = none ↔ ∀ s, Op.add s ∉ ops) ∧
    (∀ (op : Op Key Ty Handler Ev) (m2 : StateMachine Key Ty Handler (List (Call Key Handler Ev))),
      step (recording installs) op m = some m2 →
      getCurrentState m ≠ none → getCurrentState m2 ≠ none) := by
  have hwf := wellFormed_of_run installs ops m hr
  refine ⟨hwf.null, ?_, ?_⟩
  · have h1 := run_currState_none_iff installs ops (new []) m wellFormed_new hr
    simp only [getCurrentState]
    rw [h1]
    constructor
    · intro h; exact h.2
    · intro h; exact ⟨rfl, h⟩
  · intro op m2 hs hne
    simp only [getCurrentState] at hne ⊢
    rcases step_recording_cases installs op m m2 hwf.bus hs with
      ⟨h1, _⟩ | ⟨s, _, _, h3, _⟩ | ⟨k, cur, dest, _, _, _, _, _, h3⟩
    · rw [h1]; exact hne
    · rw [h3]; simp
    · rw [h3]; simp

/-- C15 on the example machine, built with three `add` calls. -/
theorem c15_current_null_iff_no_add_witness :
    (getCurrentState demoRunning = none ↔ demoRunning.m_states = []) ∧
    (getCurrentState demoRunning = none ↔ ∀ s, Op.add s ∉ demoOps) ∧
    (∀ (op : Op Phase Nat Nat Nat) (m2 : DemoMachine),
      step demoCode op demoRunning = some m2 →
      getCurrentState demoRunning ≠ none → getCurrentState m2 ≠ none) :=
  c15_current_null_iff_no_add demoInstalls demoOps demoRunning (by decide)

/-- C17: a `setNext(k)` that commits (current state `cur`, `k` registered to
`dest`, not prohibited, not the key of `cur`) is, for every user code, the
composition in this order: `onExit` of `cur` on the machine as it is (so with
`cur` current), then the prohibition set emptied, the previous state set to the
current one, the current state set to `dest`, then `onEnter` of `dest` on that
machine (so with `dest` current and no key prohibited).  With hooks that
prohibit a key, `atExit cur` in `onExit` and `atEnter dest` in `onEnter`, the
result has `cur` previous, `dest` current, and exactly `atEnter dest`
prohibited: the prohibition of `onExit` is cleared, that of `onEnter` holds. -/
theorem c17_setNext_step_order (U : UserCode Key Ty Handler Ev Owner)
    (atExit atEnter : State Key → Key)
    (m : StateMachine Key Ty Handler Owner) (cur dest : State Key) (k : Key)
    (hcur : m.m_currState = some cur) (hreg : UMap.find m.m_states k = some dest)
    (hallowed : k ∉ m.m_prohibited) (hne : k ≠ cur.KEY) :
    setNext U k m =
      some (U.onEnter dest
        { U.onExit cur m with
          m_prohibited := ∅
          m_prevState := (U.onExit cur m).m_currState
          m_currState := some dest }) ∧
    setNext (prohibiting atExit atEnter : UserCode Key Ty Handler Ev Owner) k m =
      some { m with
        m_prevState := some cur
        m_currState := some dest
        m_prohibited := {atEnter dest} } ∧
    (atExit cur ≠ atEnter dest →
      ∃ m2, setNext (prohibiting atExit atEnter : UserCode Key Ty Handler Ev Owner) k m =
          some m2 ∧
        atExit cur ∉ m2.m_prohibited ∧ atEnter dest ∈ m2.m_prohibited) := by
  have hk : ¬ cur.KEY = k := fun h => hne h.symm
  have h2 : setNext (prohibiting atExit atEnter : UserCode Key Ty Handler Ev Owner) k m =
      some { m with
        m_prevState := some cur
        m_currState := some dest
        m_prohibited := {atEnter dest} } := by
    simp [setNext, prohibiting, prohibitState, allowAllStates, hallowed, hcur, hk, hreg]
  refine ⟨?_, h2, ?_⟩
  · simp [setNext, allowAllStates, hallowed, hcur, hk, hreg]
  · intro hd
    exact ⟨_, h2, by simp [hd], by simp⟩

/-- C17 on the example machine with hooks that prohibit Stopped in `onExit` and
Idle in `onEnter`: after `setNext(Running)` only Idle is prohibited. -/
theorem c17_setNext_step_order_witness :
    setNext demoCode Phase.Running demo =
      some (demoCode.onEnter sRunning
        { demoCode.onExit sIdle demo with
          m_prohibited := ∅
          m_prevState := (demoCode.onExit sIdle demo).m_currState
          m_currState := some sRunning }) ∧
    setNext (prohibiting (fun _ => Phase.Stopped) (fun _ => Phase.Idle) :
        UserCode Phase Nat Nat Nat (List (Call Phase Nat Nat))) Phase.Running demo =
      some { demo with
        m_prevState := some sIdle
        m_currState := some sRunning
        m_prohibited := {Phase.Idle} } ∧
    (Phase.Stopped ≠ Phase.Idle →
      ∃ m2, setNext (prohibiting (fun _ => Phase.Stopped) (fun _ => Phase.Idle) :
          UserCode Phase Nat Nat Nat (List (Call Phase Nat Nat))) Phase.Running demo = some m2 ∧
        Phase.Stopped ∉ m2.m_prohibited ∧ Phase.Idle ∈ m2.m_prohibited) :=
  c17_setNext_step_order demoCode (fun _ => Phase.Stopped) (fun _ => Phase.Idle) demo
    sIdle sRunning Phase.Running (by decide) (by decide) (by decide) (by decide)

/-- C18: on a machine built by operations from a fresh one, the current state
and the previous state, when not null, are stored in the key-to-state map under
their own keys, and every state in the map is stored under its own key. -/
theorem c18_pointers_are_registered [DecidableEq Ty]
    (installs : State Key → List (Ty × Handler))
    (ops : List (Op Key Ty Handler Ev))
    (m : StateMachine Key Ty Handler (List (Call Key Handler Ev)))
    (hr : run (recording installs) ops (new []) = some m) :
    (∀ c, getCurrentState m = some c → UMap.find m.m_states c.KEY = some c) ∧
    (∀ p, getPreviousState m = some p → UMap.find m.m_states p.KEY = some p) ∧
    (∀ k s, UMap.find m.m_states k = some s → s.KEY = k) := by
  have hwf := wellFormed_of_run installs ops m hr
  exact ⟨hwf.cur, hwf.prev, hwf.own⟩

/-- C18 on the example machine, with Running current and Idle previous. -/
theorem c18_pointers_are_registered_witness :
    (∀ c, getCurrentState demoRunning = some c →
      UMap.find demoRunning.m_states c.KEY = some c) ∧
    (∀ p, getPreviousState demoRunning = some p →
      UMap.find demoRunning.m_states p.KEY = some p) ∧
    (∀ k s, UMap.find demoRunning.m_states k = some s → s.KEY = k) :=
  c18_pointers_are_registered demoInstalls demoOps demoRunning (by decide)

/-- C19: on a machine built by operations from a fresh one, with `a` current,
when `setNext(b)` commits (`b` registered to `dest`, not prohibited, not the key
of `a`), whatever else is prohibited, the `setNext(a.KEY)` that follows commits
too: it calls `dest.onExit()` and `a.onEnter()` and leaves `a` current and
`dest` previous. -/
theorem c19_transition_undone_at_once [DecidableEq Ty]
    (installs : State Key → List (Ty × Handler))
    (ops : List (Op Key Ty Handler Ev))
    (m : StateMachine Key Ty Handler (List (Call Key Handler Ev)))
    (a dest : State Key) (b : Key)
    (hr : run (recording installs) ops (new []) = some m)
    (hcur : m.m_currState = some a) (hreg : UMap.find m.m_states b = some dest)
    (hallowed : b ∉ m.m_prohibited) (hne : b ≠ a.KEY) :
    ∃ m1, setNext (recording installs) b m = some m1 ∧
      m1.m_currState = some dest ∧ m1.m_prevState = some a ∧
      setNext (recording installs) a.KEY m1 =
        some { m1 with
          m_prevState := some dest
          m_currState := some a
          owner := m1.owner ++ [Call.onExit dest, Call.onEnter a] } := by
  have hwf := wellFormed_of_run installs ops m hr
  refine ⟨_, setNext_recording_eq installs m a dest b hcur hreg hallowed hne, rfl, rfl, ?_⟩
  have hd : dest.KEY = b := hwf.own b dest hreg
  exact setNext_recording_eq installs
    { m with
      m_prevState := some a
      m_currState := some dest
      m_prohibited := ∅
      owner := m.owner ++ [Call.onExit a, Call.onEnter dest] }
    dest a a.KEY rfl (hwf.cur a hcur) (by simp) (by rw [hd]; exact fun h => hne h.symm)

/-- C19 on the example machine with Idle current and Idle prohibited:
`setNext(Running)` commits and the `setNext(Idle)` that follows brings Idle
back. -/
theorem c19_transition_undone_at_once_witness :
    ∃ m1, setNext demoCode Phase.Running (prohibitState Phase.Idle demo) = some m1 ∧
      m1.m_currState = some sRunning ∧ m1.m_prevState = some sIdle ∧
      setNext demoCode sIdle.KEY m1 =
        some { m1 with
          m_prevState := some sRunning
          m_currState := some sIdle
          owner := m1.owner ++ [Call.onExit sRunning, Call.onEnter sIdle] } :=
  c19_transition_undone_at_once demoInstalls
    [Op.add sIdle, Op.add sRunning, Op.add sStopped, Op.prohibitState Phase.Idle]
    (prohibitState Phase.Idle demo) sIdle sRunning Phase.Running
    (by decide) (by decide) (by decide) (by decide) (by decide)

/-- C20: on a machine built by operations from a fresh one that holds `s1` under
the key `k`, `add` of a state `s2` with the key `k`, whose `subscribe()`
registers the handler `h2` for the event type `E` (as its last registration for
`E`), leaves the key-to-state map, the current state and the previous state as
they were, yet `s2.subscribe()` has been called and the handler stored for `E`
and `k` is `h2`, whatever was stored for the pair before. -/
theorem c20_duplicate_add_map_and_handlers_disagree [DecidableEq Ty]
    (installs : State Key → List (Ty × Handler))
    (ops : List (Op Key Ty Handler Ev))
    (m : StateMachine Key Ty Handler (List (Call Key Handler Ev)))
    (s1 s2 : State Key) (k : Key) (E : Ty) (h2 : Handler) (l1 l2 : List (Ty × Handler))
    (hr : run (recording installs) ops (new []) = some m)
    (h1 : UMap.find m.m_states k = some s1) (hk : s2.KEY = k)
    (hin : installs s2 = l1 ++ (E, h2) :: l2) (hl : ∀ p ∈ l2, p.1 ≠ E) :
    (add (recording installs) s2 m).m_states = m.m_states ∧
    UMap.find (add (recording installs) s2 m).m_states k = some s1 ∧
    (add (recording installs) s2 m).m_currState = m.m_currState ∧
    (add (recording installs) s2 m).m_prevState = m.m_prevState ∧
    (add (recording installs) s2 m).owner = m.owner ++ [Call.subscribe s2] ∧
    handlerAt (add (recording installs) s2 m) E k = some h2 := by
  have hwf := wellFormed_of_run installs ops m hr
  have hs : (add (recording installs) s2 m).m_states = m.m_states := by
    rw [add_recording_states, hk]
    exact UMap.emplace_of_find_some m.m_states k s2 s1 h1
  have hc : m.m_currState ≠ none := by
    intro hn
    rw [hwf.null.mp hn] at h1
    simp [UMap.find] at h1
  refine ⟨hs, by rw [hs]; exact h1, ?_, add_recording_prevState installs s2 m,
    add_recording_owner installs s2 m, ?_⟩
  · rw [add_recording_currState]
    cases hm : m.m_currState with
    | none => exact absurd hm hc
    | some c => rfl
  · obtain ⟨m1, _, he⟩ := add_recording_handlerAt installs s2 m E k
    rw [he, hin, ← hk]
    exact handlerAt_subscribe_foldl_last E s2 h2 l1 l2 m1 hl

/-- C20 on the example machine: `add` of the second Running state keeps the
first one in the map, and the handler for event type 7 under Running, which was
handler 11 of the first state, is handler 13 of the second. -/
theorem c20_duplicate_add_map_and_handlers_disagree_witness :
    (add demoCode sRunning2 demo).m_states = demo.m_states ∧
    UMap.find (add demoCode sRunning2 demo).m_states Phase.Running = some sRunning ∧
    (add demoCode sRunning2 demo).m_currState = demo.m_currState ∧
    (add demoCode sRunning2 demo).m_prevState = demo.m_prevState ∧
    (add demoCode sRunning2 demo).owner = demo.owner ++ [Call.subscribe sRunning2] ∧
    handlerAt (add demoCode sRunning2 demo) 7 Phase.Running = some 13 :=
  c20_duplicate_add_map_and_handlers_disagree demoInstalls
    [Op.add sIdle, Op.add sRunning, Op.add sStopped] demo sRunning sRunning2 Phase.Running
    7 13 [] [] (by decide) (by decide) (by decide) (by decide) (by decide)

end el
